import Mathlib

/-
Verification of the yamlc comment-aware YAML generator.

The Go source (yamlc.go) is embedded shallowly: Go strings are Lean
`String`s, Go byte lengths are modelled by summing UTF-8 encoding sizes,
Go `reflect.Value`s are modelled by the inductive `GoValue`, and fallible
rendering returns `Except String String`.  Recursive rendering is embedded
in open-recursion style: every struct/slice renderer takes the recursive
value renderer `rv` as an explicit argument, and `generateValue` ties the
knot with a fuel parameter.
-/

set_option autoImplicit false

namespace Yamlc

/-! ## Character and string primitives (Go `strings`/`unicode` fragments) -/

/-- Go `unicode.IsSpace`: the White_Space code points. -/
def goIsSpace (c : Char) : Bool :=
  c = ' ' || c = '\t' || c = '\n' || c.toNat = 11 || c.toNat = 12 || c = '\r' ||
  c.toNat = 0x85 || c.toNat = 0xA0 || c.toNat = 0x1680 ||
  (0x2000 ≤ c.toNat && c.toNat ≤ 0x200A) ||
  c.toNat = 0x2028 || c.toNat = 0x2029 || c.toNat = 0x202F ||
  c.toNat = 0x205F || c.toNat = 0x3000

/-- Go `unicode.IsControl`: C0 and C1 control code points. -/
def goIsControl (c : Char) : Bool :=
  c.toNat < 0x20 || c.toNat = 0x7F || (0x80 ≤ c.toNat && c.toNat ≤ 0x9F)

/-- The `unicode.Nd` range table of the Go standard library: the inclusive
code-point ranges of the Unicode decimal-digit category. -/
def ndRanges : List (Nat × Nat) :=
  [(0x30, 0x39), (0x660, 0x669), (0x6F0, 0x6F9), (0x7C0, 0x7C9),
   (0x966, 0x96F), (0x9E6, 0x9EF), (0xA66, 0xA6F), (0xAE6, 0xAEF),
   (0xB66, 0xB6F), (0xBE6, 0xBEF), (0xC66, 0xC6F), (0xCE6, 0xCEF),
   (0xD66, 0xD6F), (0xDE6, 0xDEF), (0xE50, 0xE59), (0xED0, 0xED9),
   (0xF20, 0xF29), (0x1040, 0x1049), (0x1090, 0x1099), (0x17E0, 0x17E9),
   (0x1810, 0x1819), (0x1946, 0x194F), (0x19D0, 0x19D9), (0x1A80, 0x1A89),
   (0x1A90, 0x1A99), (0x1B50, 0x1B59), (0x1BB0, 0x1BB9), (0x1C40, 0x1C49),
   (0x1C50, 0x1C59), (0xA620, 0xA629), (0xA8D0, 0xA8D9), (0xA900, 0xA909),
   (0xA9D0, 0xA9D9), (0xA9F0, 0xA9F9), (0xAA50, 0xAA59), (0xABF0, 0xABF9),
   (0xFF10, 0xFF19), (0x104A0, 0x104A9), (0x10D30, 0x10D39),
   (0x11066, 0x1106F), (0x110F0, 0x110F9), (0x11136, 0x1113F),
   (0x111D0, 0x111D9), (0x112F0, 0x112F9), (0x11450, 0x11459),
   (0x114D0, 0x114D9), (0x11650, 0x11659), (0x116C0, 0x116C9),
   (0x11730, 0x11739), (0x118E0, 0x118E9), (0x11950, 0x11959),
   (0x11C50, 0x11C59), (0x11D50, 0x11D59), (0x11DA0, 0x11DA9),
   (0x11F50, 0x11F59), (0x16A60, 0x16A69), (0x16AC0, 0x16AC9),
   (0x16B50, 0x16B59), (0x1D7CE, 0x1D7FF), (0x1E140, 0x1E149),
   (0x1E2F0, 0x1E2F9), (0x1E4F0, 0x1E4F9), (0x1E950, 0x1E959),
   (0x1FBF0, 0x1FBF9)]

/-- Go `unicode.IsDigit`: membership in the Unicode decimal-digit category
Nd (the `unicode.Nd` range table), not just the ASCII digits. -/
def goIsDigit (c : Char) : Bool :=
  ndRanges.any (fun r => r.1 ≤ c.toNat && c.toNat ≤ r.2)

/-- Size in bytes of one code point in UTF-8; summing this models Go `len`. -/
def utf8Len (c : Char) : Nat :=
  if c.toNat ≤ 0x7F then 1
  else if c.toNat ≤ 0x7FF then 2
  else if c.toNat ≤ 0xFFFF then 3
  else 4

/-- Go `len(s)` on a string: its UTF-8 byte length. -/
def goStrLen (s : String) : Nat := (s.data.map utf8Len).sum

/-- isWideChar (yamlc.go): wide-character ranges, counted as two columns. -/
def isWideChar (c : Char) : Bool :=
  (0x1100 ≤ c.toNat && c.toNat ≤ 0x115F) ||
  (0x2E80 ≤ c.toNat && c.toNat ≤ 0x9FFF) ||
  (0xAC00 ≤ c.toNat && c.toNat ≤ 0xD7AF) ||
  (0xF900 ≤ c.toNat && c.toNat ≤ 0xFAFF) ||
  (0xFE30 ≤ c.toNat && c.toNat ≤ 0xFE4F) ||
  (0xFF00 ≤ c.toNat && c.toNat ≤ 0xFFEF)

/-- Display width of one code point. -/
def charWidth (c : Char) : Nat := if isWideChar c then 2 else 1

/-- getDisplayWidth (yamlc.go): display width of a string, wide chars count 2. -/
def getDisplayWidth (s : String) : Nat := (s.data.map charWidth).sum

/-- Go `strings.Split` on a single separator character (list-of-chars core). -/
def splitCharList (sep : Char) : List Char → List (List Char)
  | [] => [[]]
  | c :: cs =>
    if c = sep then [] :: splitCharList sep cs
    else
      match splitCharList sep cs with
      | [] => [[c]]
      | l :: ls => (c :: l) :: ls

/-- The lines of a string: Go `strings.Split(s, "\n")`. -/
def linesOf (s : String) : List String := (splitCharList '\n' s.data).map String.mk

/-- Go `strings.Join(parts, sep)`. -/
def joinSep (sep : String) : List String → String
  | [] => ""
  | [l] => l
  | l :: ls => l ++ sep ++ joinSep sep ls

/-- Go `strings.Join(lines, "\n")` (the inverse of line splitting). -/
def joinNL (ls : List String) : String := joinSep "\n" ls

/-- Go `strings.TrimSpace`. -/
def goTrimSpace (s : String) : String :=
  String.mk (((s.data.dropWhile goIsSpace).reverse.dropWhile goIsSpace).reverse)

/-- Go `strings.TrimRight(s, "\n")`. -/
def goTrimRightNL (s : String) : String :=
  String.mk ((s.data.reverse.dropWhile (fun c => c = '\n')).reverse)

/-- Go `strings.HasPrefix`. -/
def goStartsWith (s pre : String) : Bool := s.data.take pre.data.length = pre.data

/-- Go `strings.HasSuffix`. -/
def goEndsWith (s suf : String) : Bool := s.data.reverse.take suf.data.length = suf.data.reverse

/-- Go `strings.Contains(s, string(c))` for a one-character needle. -/
def goContainsChar (s : String) (c : Char) : Bool := s.data.contains c

/-- Go `strings.ContainsAny(s, chars)`. -/
def goContainsAny (s : String) (chars : List Char) : Bool :=
  s.data.any (fun c => chars.contains c)

/-- Go `strings.Repeat(u, n)`. -/
def goRepeat (u : String) (n : Nat) : String := String.mk ((List.replicate n u.data).flatten)

/-- Number of leading space characters of a line:
Go `len(line) - len(strings.TrimLeft(line, " "))`. -/
def leadingSpaces (s : String) : Nat := (s.data.takeWhile (fun c => c = ' ')).length

/-- Go `strings.SplitN(s, ":", 2)[0]`: the part before the first colon. -/
def beforeColon (s : String) : String := String.mk (s.data.takeWhile (fun c => c ≠ ':'))

/-- Core of Go `strings.Fields`: split around runs of white space. -/
def fieldsCore (cur : List Char) : List Char → List (List Char)
  | [] => if cur = [] then [] else [cur.reverse]
  | c :: cs =>
    if goIsSpace c then
      if cur = [] then fieldsCore [] cs else cur.reverse :: fieldsCore [] cs
    else fieldsCore (c :: cur) cs

/-- Go `strings.Fields`. -/
def goFields (s : String) : List String := (fieldsCore [] s.data).map String.mk

/-- Go `strings.ToLower` (ASCII fragment, which covers the style names). -/
def goToLower (s : String) : String := String.mk (s.data.map Char.toLower)

/-! ## Style codec (GetStyleString / GetStyleFromString) -/

/-- GetStyleString (yamlc.go): ordinal to canonical style name. -/
def GetStyleString (style : Int) : String :=
  if style = 0 then "top"
  else if style = 1 then "inline"
  else if style = 2 then "smart"
  else if style = 3 then "compact"
  else if style = 4 then "minimal"
  else if style = 5 then "verbose"
  else if style = 6 then "spaced"
  else if style = 7 then "grouped"
  else if style = 8 then "sectioned"
  else if style = 9 then "doc"
  else if style = 10 then "separate"
  else "smart"

/-- GetStyleFromString (yamlc.go): case-insensitive style-name lookup,
defaulting to StyleSmart (= 2). -/
def GetStyleFromString (styleStr : String) : Int :=
  let s := goToLower styleStr
  if s = "top" then 0
  else if s = "inline" then 1
  else if s = "smart" then 2
  else if s = "compact" then 3
  else if s = "minimal" then 4
  else if s = "verbose" then 5
  else if s = "spaced" then 6
  else if s = "grouped" then 7
  else if s = "sectioned" then 8
  else if s = "doc" then 9
  else if s = "separate" then 10
  else 2

/-- The canonical lowercase style names, ordinal order. -/
def canonicalStyleNames : List String :=
  ["top", "inline", "smart", "compact", "minimal", "verbose", "spaced",
   "grouped", "sectioned", "doc", "separate"]

/-! ## Scalar rendering -/

/-- The YAML reserved words recognised by needsQuoting (yamlc.go). -/
def yamlKeywords : List String :=
  ["true", "false", "yes", "no", "on", "off", "null", "nil",
   "~", "True", "False", "TRUE", "FALSE", "Yes", "No", "YES", "NO",
   "On", "Off", "ON", "OFF", "Null", "NULL", "Nil", "NIL"]

/-- The special-character set of needsQuoting (yamlc.go):
`:#` `{}[]&*!|>"'%?@` and a backtick.  Braces, the apostrophe and the
backtick are written by code point. -/
def specialChars : List Char :=
  [':', '#', Char.ofNat 123, Char.ofNat 125, '[', ']', '&', '*', '!', '|',
   '>', '"', Char.ofNat 39, '%', '?', '@', Char.ofNat 96]

/-- Loop body of isNumericString (yamlc.go): index-aware character scan. -/
def isNumericBody : Nat → List Char → Bool
  | _, [] => true
  | i, c :: rest =>
    if i = 0 && (c = '+' || c = '-') then isNumericBody (i + 1) rest
    else if !(goIsDigit c) && c ≠ '.' && c ≠ 'e' && c ≠ 'E' then false
    else isNumericBody (i + 1) rest

/-- isNumericString (yamlc.go). -/
def isNumericString (str : String) : Bool :=
  if str = "" then false
  else isNumericBody 0 str.data &&
    goContainsAny str ['0', '1', '2', '3', '4', '5', '6', '7', '8', '9']

/-- needsQuoting (yamlc.go), as the disjunction of its early-return tests. -/
def needsQuoting (str : String) : Bool :=
  str = "" ||
  yamlKeywords.contains str ||
  isNumericString str ||
  goContainsAny str specialChars ||
  goContainsChar str '\n' ||
  goStartsWith str " " || goEndsWith str " " ||
  (match str.data with
   | [] => false
   | c :: _ => c = '+' || c = '-')

/-- validateStringContent (yamlc.go): reject control characters other than
newline, tab and carriage return. -/
def validateStringContent (str : String) : Except String Unit :=
  if str.data.any (fun r => goIsControl r && r ≠ '\n' && r ≠ '\t' && r ≠ '\r') then
    Except.error "string contains invalid control character"
  else Except.ok ()

/-- Go `fmt.Sprintf("%q", s)` escaping of one character (the fragment
reachable after validateStringContent: printable text plus newline, tab
and carriage return). -/
def goQuoteChar (c : Char) : List Char :=
  if c = '\\' then ['\\', '\\']
  else if c = '"' then ['\\', '"']
  else if c = '\n' then ['\\', 'n']
  else if c = '\t' then ['\\', 't']
  else if c = '\r' then ['\\', 'r']
  else [c]

/-- Go `fmt.Sprintf("%q", s)`: a double-quoted, escaped string literal. -/
def goQuote (s : String) : String :=
  String.mk ('"' :: (s.data.map goQuoteChar).flatten ++ ['"'])

/-- generateString (yamlc.go). -/
def generateString (s : String) : Except String String := do
  let _ ← validateStringContent s
  if needsQuoting s then Except.ok (goQuote s) else Except.ok s

/-- The signed integer kinds of the Go source. -/
inductive GoIntKind where
  | i | i8 | i16 | i32 | i64
deriving DecidableEq, Repr

/-- The unsigned integer kinds of the Go source. -/
inductive GoUintKind where
  | u | u8 | u16 | u32 | u64
deriving DecidableEq, Repr

/-- generateInt (yamlc.go): explicit range validation for the 8/16/32-bit
kinds, then decimal rendering. -/
def generateInt (k : GoIntKind) (intVal : Int) : Except String String :=
  match k with
  | .i8 =>
    if intVal < -128 ∨ intVal > 127 then Except.error "int8 value out of range"
    else Except.ok (toString intVal)
  | .i16 =>
    if intVal < -32768 ∨ intVal > 32767 then Except.error "int16 value out of range"
    else Except.ok (toString intVal)
  | .i32 =>
    if intVal < -2147483648 ∨ intVal > 2147483647 then Except.error "int32 value out of range"
    else Except.ok (toString intVal)
  | _ => Except.ok (toString intVal)

/-- generateUint (yamlc.go). -/
def generateUint (k : GoUintKind) (uintVal : Nat) : Except String String :=
  match k with
  | .u8 =>
    if uintVal > 255 then Except.error "uint8 value out of range"
    else Except.ok (toString uintVal)
  | .u16 =>
    if uintVal > 65535 then Except.error "uint16 value out of range"
    else Except.ok (toString uintVal)
  | .u32 =>
    if uintVal > 4294967295 then Except.error "uint32 value out of range"
    else Except.ok (toString uintVal)
  | _ => Except.ok (toString uintVal)

/-- generateBool (yamlc.go). -/
def generateBool (b : Bool) : Except String String :=
  Except.ok (if b then "true" else "false")

end Yamlc

namespace Yamlc

/-! ## Render options and the reflected value model -/

/-- Options (yamlc.go): the comment style ordinal and the ordered list of
caller-supplied comment override mappings.  A Go `nil` map is `none`; a
map is modelled as an association list. -/
structure Options where
  style : Int
  comments : List (Option (List (String × String)))

mutual

/-- The fragment of Go `reflect.Value` shapes the generator dispatches on:
interface nil, strings, the integer kinds, booleans, pointers, structs
(carrying their already-collected exported field descriptors) and slices. -/
inductive GoValue where
  | vNull
  | vStr (s : String)
  | vInt (k : GoIntKind) (n : Int)
  | vUint (k : GoUintKind) (n : Nat)
  | vBool (b : Bool)
  | vPtr (p : Option GoValue)
  | vStruct (fields : List GoField)
  | vSlice (elems : List GoValue)

/-- FieldInfo (yamlc.go): one collected field descriptor — tag-resolved name,
resolved comment, the field's Go type string, and the field value. -/
inductive GoField where
  | mk (name comment typeName : String) (value : GoValue)

end

def GoField.name : GoField → String
  | .mk n _ _ _ => n

def GoField.comment : GoField → String
  | .mk _ c _ _ => c

def GoField.typeName : GoField → String
  | .mk _ _ t _ => t

def GoField.value : GoField → GoValue
  | .mk _ _ _ v => v

/-- isComplexType (yamlc.go). -/
def isComplexType : GoValue → Bool
  | .vStruct _ => true
  | .vSlice elems => elems.length > 0
  | .vPtr none => false
  | .vPtr (some v) => isComplexType v
  | _ => false

/-- hasChildren (yamlc.go). -/
def hasChildren : GoValue → Bool
  | .vStruct fields => fields.length > 0
  | .vSlice [] => false
  | .vSlice (e :: _) => isComplexType e
  | .vPtr none => false
  | .vPtr (some v) => hasChildren v
  | _ => false

/-- isEmptyContainer (yamlc.go). -/
def isEmptyContainer : GoValue → Bool
  | .vSlice elems => elems.length = 0
  | _ => false

/-- getEmptyContainerValue (yamlc.go). -/
def getEmptyContainerValue : GoValue → String
  | .vSlice _ => "[]"
  | .vStruct _ => "\x7b\x7d"
  | _ => ""

/-- Whether a value has Go kind Slice/Array. -/
def isSliceKind : GoValue → Bool
  | .vSlice _ => true
  | _ => false

/-- Go `val.Len()` for slice kinds. -/
def sliceLen : GoValue → Nat
  | .vSlice elems => elems.length
  | _ => 0

/-- getIndentLevel (yamlc.go): `len(indentStr) / 2`. -/
def getIndentLevel (indentStr : String) : Nat := goStrLen indentStr / 2

/-- normalizeTrailingNewlines1 (yamlc.go). -/
def normalizeTrailingNewlines1 (content : String) : String :=
  if goEndsWith content "\n" then goTrimRightNL content ++ "\n" else content

/-- calculateMaxFieldNameLen (yamlc.go): byte length of the longest field
name, plus one for the colon. -/
def calculateMaxFieldNameLen (fields : List GoField) : Nat :=
  fields.foldl (fun maxLen f => max maxLen (goStrLen f.name + 1)) 0

/-- shouldAddSpacing (yamlc.go): blank separators for the Spaced (6),
Grouped (7) and Sectioned (8) styles, except after the last field. -/
def shouldAddSpacing (style : Int) (currentIndex totalFields : Nat) : Bool :=
  if currentIndex + 1 ≥ totalFields then false
  else style = 6 || style = 7 || style = 8

/-! ## Sequence rendering (generateSlice / addDashPrefix) -/

/-- A line that is a full-line comment after trimming. -/
def isCommentLine (l : String) : Bool := goStartsWith (goTrimSpace l) "#"

/-- A blank line after trimming. -/
def isBlankLine (l : String) : Bool := goTrimSpace l = ""

/-- A non-blank, non-comment line. -/
def isContentLine (l : String) : Bool := !(isBlankLine l) && !(isCommentLine l)

/-- The dash-splicing loop of addDashPrefix (yamlc.go): the first non-blank
non-comment line is replaced by `indentStr ++ "- " ++ trimmed line`. -/
def dashFirst (indentStr : String) : List String → List String
  | [] => []
  | l :: rest =>
    if isContentLine l then (indentStr ++ "- " ++ goTrimSpace l) :: rest
    else l :: dashFirst indentStr rest

/-- addDashPrefix (yamlc.go): optionally strip blank and comment lines, then
splice a "- " prefix onto the first non-blank non-comment line. -/
def addDashPrefix (content indentStr : String) (keepComments : Bool) : String :=
  let ls := if keepComments then linesOf content else (linesOf content).filter isContentLine
  joinNL (dashFirst indentStr ls)

/-- The type of the recursive value renderer (value, indent to rendered text);
the struct and slice renderers are parameterised over it and `generateValue`
ties the knot below. -/
abbrev RenderFn := GoValue → Nat → Except String String

/-- Loop of generateSlice (yamlc.go) over the elements with their index. -/
def genSliceItems (rv : RenderFn) (indentStr : String) (indent total : Nat) :
    Nat → List GoValue → Except String String
  | _, [] => Except.ok ""
  | i, item :: rest =>
    if hasChildren item then do
      let itemStr ← rv item (indent + 1)
      let keepComments := i == 0
      let formattedStr := addDashPrefix itemStr indentStr keepComments
      let tail := if i + 1 = total then "\n" else ""
      let r ← genSliceItems rv indentStr indent total (i + 1) rest
      Except.ok (formattedStr ++ tail ++ r)
    else do
      let head := if i = 0 then "\n" else ""
      let itemStr ← rv item (indent + 1)
      let t := goTrimSpace itemStr
      let line := if t ≠ "" then indentStr ++ "- " ++ t ++ "\n" else indentStr ++ "-\n"
      let r ← genSliceItems rv indentStr indent total (i + 1) rest
      Except.ok (head ++ line ++ r)

/-- generateSlice (yamlc.go). -/
def generateSlice (rv : RenderFn) (elems : List GoValue) (indent : Nat) :
    Except String String :=
  if elems.length = 0 then Except.ok " []\n"
  else genSliceItems rv (goRepeat "  " indent) indent elems.length 0 elems

/-! ## Field rendering (the per-style field emitters) -/

/-- generateFieldValue (yamlc.go). -/
def generateFieldValue (rv : RenderFn) (field : GoField) (indentStr : String) :
    Except String String :=
  if hasChildren field.value || isSliceKind field.value then do
    let hasVisibleChildren := hasChildren field.value ||
      (isSliceKind field.value && sliceLen field.value > 0)
    let head := if hasVisibleChildren then "\n" else ""
    let fieldValue ← rv field.value (getIndentLevel indentStr + 1)
    if isSliceKind field.value then
      let lines := linesOf fieldValue
      let commentLines := (lines.filter (fun l => !(isBlankLine l) && isCommentLine l)).map
        (fun l => l ++ "\n")
      let fieldLines := (lines.filter isContentLine).map
        (fun l => normalizeTrailingNewlines1 (l ++ "\n"))
      let cpart := if commentLines.length > 0 then
        normalizeTrailingNewlines1 (String.join commentLines) else ""
      let fpart := if fieldLines.length > 0 then
        normalizeTrailingNewlines1 (String.join fieldLines) else ""
      Except.ok (head ++ cpart ++ fpart)
    else
      Except.ok (head ++ fieldValue)
  else do
    let fieldValue ← rv field.value 0
    Except.ok (" " ++ goTrimSpace fieldValue)

/-- generateTopStyleField (yamlc.go). -/
def generateTopStyleField (rv : RenderFn) (field : GoField) (indentStr : String) :
    Except String String := do
  let head := if field.comment ≠ "" then indentStr ++ "# " ++ field.comment ++ "\n" else ""
  let v ← generateFieldValue rv field indentStr
  Except.ok (head ++ indentStr ++ field.name ++ ": " ++ v)

/-- generateVerboseStyleField (yamlc.go). -/
def generateVerboseStyleField (rv : RenderFn) (field : GoField) (indentStr : String) :
    Except String String := do
  let head := if field.comment ≠ "" then
    indentStr ++ "# " ++ field.comment ++ " (" ++ field.typeName ++ ")\n" else ""
  let v ← generateFieldValue rv field indentStr
  Except.ok (head ++ indentStr ++ field.name ++ ":" ++ v)

/-- generateCompactStyleField (yamlc.go). -/
def generateCompactStyleField (rv : RenderFn) (field : GoField) (indentStr : String) :
    Except String String :=
  if hasChildren field.value then
    if field.comment ≠ "" then
      match field.value with
      | .vSlice elems =>
        if elems.length = 0 then
          Except.ok (indentStr ++ field.name ++ ": [] # " ++ field.comment ++ "\n")
        else Except.ok ""
      | .vStruct innerFields =>
        if innerFields.length = 0 then
          Except.ok (indentStr ++ field.name ++ ": \x7b\x7d # " ++ field.comment ++ "\n")
        else Except.ok ""
      | _ => do
        let v ← generateFieldValue rv field indentStr
        Except.ok (indentStr ++ field.name ++ ":  # " ++ field.comment ++ v)
    else do
      let v ← generateFieldValue rv field indentStr
      Except.ok (indentStr ++ field.name ++ ": " ++ v)
  else do
    let hasVisibleChildren := isSliceKind field.value && sliceLen field.value > 0
    let ind := if hasVisibleChildren then 1 else 0
    let pre :=
      if hasVisibleChildren then
        if field.comment ≠ "" then indentStr ++ field.name ++ ": # " ++ field.comment
        else indentStr ++ field.name ++ ": "
      else indentStr ++ field.name ++ ": "
    let fv0 ← rv field.value ind
    let fv := goTrimRightNL fv0
    if field.comment ≠ "" && !hasVisibleChildren then
      Except.ok (pre ++ fv ++ " # " ++ field.comment ++ "\n")
    else Except.ok (pre ++ fv ++ "\n")

/-- generateInlineStyleField (yamlc.go).  The local `maxFieldNameLen` is the
level-wide byte-length maximum plus the fixed margin 30; alignment gaps are
computed in `Int` exactly as the Go `int` expressions, with the `< 1` clamps
of the source. -/
def generateInlineStyleField (rv : RenderFn) (field : GoField) (indentStr : String)
    (maxFieldNameLen0 : Nat) : Except String String :=
  let maxFieldNameLen : Int := (maxFieldNameLen0 : Int) + 30
  let fieldNamePart := field.name ++ ":"
  let currentFieldNameLen : Int := (getDisplayWidth fieldNamePart : Int)
  if hasChildren field.value then
    if field.comment ≠ "" then
      if isEmptyContainer field.value then
        let emptyValue := getEmptyContainerValue field.value
        let a0 : Int := maxFieldNameLen - currentFieldNameLen -
          (getDisplayWidth emptyValue : Int) + 2
        let a := if a0 < 1 then 1 else a0
        Except.ok (indentStr ++ fieldNamePart ++ " " ++ emptyValue ++
          goRepeat " " a.toNat ++ "# " ++ field.comment ++ "\n")
      else do
        let a0 : Int := maxFieldNameLen - currentFieldNameLen + 2
        let a := if a0 < 1 then 1 else a0
        let v ← generateFieldValue rv field indentStr
        Except.ok (indentStr ++ fieldNamePart ++ goRepeat " " a.toNat ++
          "# " ++ field.comment ++ v)
    else do
      let v ← generateFieldValue rv field indentStr
      Except.ok (indentStr ++ fieldNamePart ++ " " ++ v)
  else if isSliceKind field.value then do
    let hasVisibleChildren := hasChildren field.value ||
      (isSliceKind field.value && sliceLen field.value > 0)
    let ind := if hasVisibleChildren then 1 else 0
    let pre :=
      if hasVisibleChildren then
        if field.comment ≠ "" then
          let fieldNameAndValueWidth : Int :=
            (getDisplayWidth (indentStr ++ field.name ++ ": ") : Int)
          let a : Int := maxFieldNameLen + (getDisplayWidth indentStr : Int) -
            fieldNameAndValueWidth
          indentStr ++ field.name ++ ":" ++ goRepeat " " a.toNat ++ "# " ++ field.comment
        else indentStr ++ field.name ++ ":"
      else indentStr ++ field.name ++ ": "
    let fv0 ← rv field.value ind
    let fv := goTrimRightNL fv0
    if field.comment ≠ "" then
      if hasVisibleChildren then Except.ok (pre ++ fv ++ "\n")
      else
        let fieldNameAndValueWidth : Int :=
          (getDisplayWidth (indentStr ++ field.name ++ ": " ++ fv) : Int)
        let a0 : Int := maxFieldNameLen + (getDisplayWidth indentStr : Int) -
          fieldNameAndValueWidth + 2
        let a := if a0 < 1 then 1 else a0
        Except.ok (pre ++ fv ++ goRepeat " " a.toNat ++ "# " ++ field.comment ++ "\n")
    else Except.ok (pre ++ fv ++ "\n")
  else do
    let pre := indentStr ++ field.name ++ ": "
    let fv0 ← rv field.value 0
    let fv := goTrimRightNL fv0
    if field.comment ≠ "" then
      let actualFieldLine := indentStr ++ field.name ++ ": " ++ fv
      let fieldLineWidth : Int := (getDisplayWidth actualFieldLine : Int)
      let targetWidth : Int := (getDisplayWidth indentStr : Int) + maxFieldNameLen
      let a0 : Int := targetWidth - fieldLineWidth + 2
      let a := if a0 < 1 then 1 else a0
      Except.ok (pre ++ fv ++ goRepeat " " a.toNat ++ "# " ++ field.comment ++ "\n")
    else Except.ok (pre ++ fv ++ "\n")

/-- generateFieldWithComment (yamlc.go): Smart (2) resolves per field to
Top (0) or Inline (1); then dispatch to the per-style field emitter. -/
def generateFieldWithComment (rv : RenderFn) (field : GoField) (indent : Nat)
    (commentStyle : Int) (maxFieldNameLen : Nat) : Except String String :=
  let indentStr := goRepeat "  " indent
  let cs := if commentStyle = 2 then
    (if hasChildren field.value then (0 : Int) else 1) else commentStyle
  if cs = 0 then generateTopStyleField rv field indentStr
  else if cs = 1 then generateInlineStyleField rv field indentStr maxFieldNameLen
  else if cs = 3 then generateCompactStyleField rv field indentStr
  else if cs = 5 then generateVerboseStyleField rv field indentStr
  else generateTopStyleField rv field indentStr

end Yamlc

namespace Yamlc

/-! ## Struct rendering (the four layout strategies) -/

/-- Field loop of generateStructDefault (yamlc.go), with the per-style blank
separators of shouldAddSpacing. -/
def generateStructDefaultLoop (rv : RenderFn) (style : Int) (indent maxLen total : Nat) :
    Nat → List GoField → Except String String
  | _, [] => Except.ok ""
  | i, f :: rest => do
    let s ← generateFieldWithComment rv f indent style maxLen
    let sp := if shouldAddSpacing style i total then "\n" else ""
    let r ← generateStructDefaultLoop rv style indent maxLen total (i + 1) rest
    Except.ok (s ++ sp ++ r)

/-- generateStructDefault (yamlc.go). -/
def generateStructDefault (rv : RenderFn) (style : Int) (fields : List GoField)
    (indent : Nat) : Except String String :=
  generateStructDefaultLoop rv style indent (calculateMaxFieldNameLen fields)
    fields.length 0 fields

/-- The banner comment lines of generateStructDoc (yamlc.go): one
`# name(type):comment` line per commented field, stopping after the first
field that has children. -/
def docBannerLines (indentStr : String) : List GoField → String
  | [] => ""
  | f :: rest =>
    let line := if f.comment ≠ "" then
      indentStr ++ "# " ++ f.name ++ "(" ++ f.typeName ++ "):" ++ f.comment ++ "\n" else ""
    if hasChildren f.value then line else line ++ docBannerLines indentStr rest

/-- The field loop shared by generateStructDoc and generateStructSeparate
(yamlc.go): `name: ` then a newline-plus-block for fields with children or
the value inline, with a newline separator between fields. -/
def plainFieldsLoop (rv : RenderFn) (indentStr : String) (indent total : Nat) :
    Nat → List GoField → Except String String
  | _, [] => Except.ok ""
  | i, f :: rest => do
    let nl := if hasChildren f.value then "\n" else ""
    let v ← rv f.value (indent + 1)
    let sep := if i + 1 < total then "\n" else ""
    let r ← plainFieldsLoop rv indentStr indent total (i + 1) rest
    Except.ok (indentStr ++ f.name ++ ": " ++ nl ++ v ++ sep ++ r)

/-- generateStructDoc (yamlc.go): a 44-hash banner, the truncated comment
block, a 43-hash closing line, then the fields. -/
def generateStructDoc (rv : RenderFn) (fields : List GoField) (indent : Nat) :
    Except String String := do
  let indentStr := goRepeat "  " indent
  let banner := indentStr ++ String.mk (List.replicate 44 '#') ++ "\n" ++
    docBannerLines indentStr fields ++
    indentStr ++ String.mk (List.replicate 43 '#') ++ "\n\n"
  let body ← plainFieldsLoop rv indentStr indent fields.length 0 fields
  Except.ok (banner ++ body)

/-- The sub-level field descriptors that generateAllComments (yamlc.go)
recurses into: a struct's fields, a non-nil pointer to a struct, or the
struct behind the first element of a slice. -/
def subFieldsOf : GoValue → List GoField
  | .vStruct fs => fs
  | .vPtr (some (.vStruct fs)) => fs
  | .vSlice (e :: _) =>
    (match e with
     | .vStruct fs => fs
     | .vPtr (some (.vStruct fs)) => fs
     | _ => [])
  | _ => []

theorem sizeOf_subFieldsOf (v : GoValue) : sizeOf (subFieldsOf v) < 1 + sizeOf v := by
  cases v with
  | vNull => simp [subFieldsOf]
  | vStr s => simp [subFieldsOf]
  | vInt k n => simp [subFieldsOf]
  | vUint k n => simp [subFieldsOf]
  | vBool b => simp [subFieldsOf]
  | vStruct fs => simp [subFieldsOf] <;> omega
  | vPtr p =>
    cases p with
    | none => simp [subFieldsOf]
    | some w => cases w <;> simp [subFieldsOf] <;> omega
  | vSlice es =>
    cases es with
    | nil => simp [subFieldsOf]
    | cons e rest =>
      cases e with
      | vNull => simp [subFieldsOf] <;> omega
      | vStr s => simp [subFieldsOf] <;> omega
      | vInt k n => simp [subFieldsOf] <;> omega
      | vUint k n => simp [subFieldsOf] <;> omega
      | vBool b => simp [subFieldsOf] <;> omega
      | vStruct fs => simp [subFieldsOf] <;> omega
      | vSlice es2 => simp [subFieldsOf] <;> omega
      | vPtr p =>
        cases p with
        | none => simp [subFieldsOf] <;> omega
        | some w => cases w <;> simp [subFieldsOf] <;> omega

/-- generateAllComments (yamlc.go): the recursively flattened
`# name(type):comment` banner body of the Separate style.  Every field gets a
line (the comment filter in the source is commented out), and fields with
children recurse into their sub-level descriptors one indent deeper. -/
def generateAllComments (indent : Nat) : List GoField → String
  | [] => ""
  | f :: rest =>
    let indentStr := goRepeat "  " indent
    let line := "# " ++ indentStr ++ f.name ++ "(" ++ f.typeName ++ "):" ++ f.comment ++ "\n"
    let sub :=
      if hasChildren f.value then
        (if (subFieldsOf f.value).length > 0 then
          generateAllComments (indent + 1) (subFieldsOf f.value) else "")
      else ""
    line ++ sub ++ generateAllComments indent rest
termination_by fs => sizeOf fs
decreasing_by
  all_goals simp_wf
  all_goals
    first
    | omega
    | (have h := sizeOf_subFieldsOf f.value
       cases f with
       | mk n c t v => simp [GoField.value] at h ⊢; omega)

/-- generateStructSeparate (yamlc.go): at the top level only, a banner with
all comments of all nesting depths, then the plain field loop. -/
def generateStructSeparate (rv : RenderFn) (fields : List GoField) (indent : Nat) :
    Except String String := do
  let banner :=
    if indent = 0 then
      String.mk (List.replicate 44 '#') ++ "\n" ++ generateAllComments 0 fields ++
      String.mk (List.replicate 43 '#') ++ "\n\n"
    else ""
  let indentStr := goRepeat "  " indent
  let body ← plainFieldsLoop rv indentStr indent fields.length 0 fields
  Except.ok (banner ++ body)

/-- Append a field to the last group collected so far (the Go
`fieldInfoArrs[len-1].Fields = append(...)` of generateStructSectioned). -/
def sectionAppendLast (arrs : List (List GoField × Bool)) (f : GoField) :
    List (List GoField × Bool) :=
  match arrs with
  | [] => [([f], true)]
  | [g] => [(g.1 ++ [f], g.2)]
  | g :: gs => g :: sectionAppendLast gs f

/-- The grouping loop of generateStructSectioned (yamlc.go): each field with
children opens its own complex group; the first simple field opens a simple
group and every later simple field is appended to the most recent group. -/
def sectionGroupsAux : List GoField → List (List GoField × Bool) → Bool →
    List (List GoField × Bool)
  | [], arrs, _ => arrs
  | f :: rest, arrs, flag =>
    if hasChildren f.value then sectionGroupsAux rest (arrs ++ [([f], false)]) flag
    else if flag then sectionGroupsAux rest (arrs ++ [([f], true)]) false
    else sectionGroupsAux rest (sectionAppendLast arrs f) flag

/-- The field grouping of generateStructSectioned (yamlc.go). -/
def sectionGroups (fields : List GoField) : List (List GoField × Bool) :=
  sectionGroupsAux fields [] true

/-- The block of collected comments above a simple run (yamlc.go,
generateStructSectioned). -/
def sectionedSimpleComments (indentStr : String) (gfields : List GoField) : String :=
  String.join (gfields.map (fun f =>
    if f.comment ≠ "" then indentStr ++ "# " ++ f.comment ++ "\n" else ""))

/-- The `name:  value` lines of a simple run (yamlc.go,
generateStructSectioned), newline-separated. -/
def sectionedSimpleVals (rv : RenderFn) (indentStr : String) (indent : Nat) :
    List GoField → Except String String
  | [] => Except.ok ""
  | [f] => do
    let v ← rv f.value (indent + 1)
    Except.ok (indentStr ++ f.name ++ ": " ++ " " ++ goTrimSpace v)
  | f :: rest => do
    let v ← rv f.value (indent + 1)
    let r ← sectionedSimpleVals rv indentStr indent rest
    Except.ok (indentStr ++ f.name ++ ": " ++ " " ++ goTrimSpace v ++ "\n" ++ r)

/-- One complex field of generateStructSectioned (yamlc.go): its comment
line, `name: `, an extra newline when the rendered value starts with a
comment, then the value. -/
def sectionedComplexOne (rv : RenderFn) (indentStr : String) (indent : Nat)
    (f : GoField) : Except String String := do
  let head := if f.comment ≠ "" then indentStr ++ "# " ++ f.comment ++ "\n" else ""
  let v ← rv f.value (indent + 1)
  let nl := if goStartsWith (goTrimSpace v) "#" then "\n" else ""
  Except.ok (head ++ indentStr ++ f.name ++ ": " ++ nl ++ v)

/-- The complex fields of one group, newline-separated (yamlc.go,
generateStructSectioned). -/
def sectionedComplexVals (rv : RenderFn) (indentStr : String) (indent : Nat) :
    List GoField → Except String String
  | [] => Except.ok ""
  | [f] => sectionedComplexOne rv indentStr indent f
  | f :: rest => do
    let s ← sectionedComplexOne rv indentStr indent f
    let r ← sectionedComplexVals rv indentStr indent rest
    Except.ok (s ++ "\n" ++ r)

/-- The group loop of generateStructSectioned (yamlc.go). -/
def sectionedGroupsLoop (rv : RenderFn) (indentStr : String) (indent : Nat) :
    List (List GoField × Bool) → Except String String
  | [] => Except.ok ""
  | (gfields, isSimple) :: rest => do
    let s ←
      if isSimple then do
        let vals ← sectionedSimpleVals rv indentStr indent gfields
        Except.ok (sectionedSimpleComments indentStr gfields ++ "\n" ++ vals ++
          (if gfields.length > 0 then "\n" else ""))
      else do
        let vals ← sectionedComplexVals rv indentStr indent gfields
        Except.ok ("\n" ++ vals)
    let r ← sectionedGroupsLoop rv indentStr indent rest
    Except.ok (s ++ r)

/-- generateStructSectioned (yamlc.go). -/
def generateStructSectioned (rv : RenderFn) (fields : List GoField) (indent : Nat) :
    Except String String :=
  sectionedGroupsLoop rv (goRepeat "  " indent) indent (sectionGroups fields)

/-- The style switch of generateStruct (yamlc.go): Doc (9), Separate (10),
Sectioned (8), otherwise the default per-field layout. -/
def generateStructDispatch (rv : RenderFn) (options : Options) (fields : List GoField)
    (indent : Nat) : Except String String :=
  if options.style = 9 then generateStructDoc rv fields indent
  else if options.style = 10 then generateStructSeparate rv fields indent
  else if options.style = 8 then generateStructSectioned rv fields indent
  else generateStructDefault rv options.style fields indent

/-- generateStruct (yamlc.go): empty field lists render as ` {}` with a
newline; otherwise the style body with one appended newline — the append is
unconditional at every call, whatever the indent. -/
def generateStruct (rv : RenderFn) (options : Options) (fields : List GoField)
    (indent : Nat) : Except String String :=
  if fields.length = 0 then Except.ok " \x7b\x7d\n"
  else do
    let result ← generateStructDispatch rv options fields indent
    Except.ok (result ++ "\n")

/-- generateValue (yamlc.go), with a fuel parameter bounding the recursion
depth; every renderer below receives the one-step-smaller renderer. -/
def generateValue (options : Options) : Nat → GoValue → Nat → Except String String
  | 0, _, _ => Except.error "recursion depth exceeded"
  | fuel + 1, val, indent =>
    match val with
    | .vNull => Except.ok "null"
    | .vStruct fields =>
      generateStruct (fun v i => generateValue options fuel v i) options fields indent
    | .vSlice elems =>
      generateSlice (fun v i => generateValue options fuel v i) elems indent
    | .vStr s => generateString s
    | .vInt k n => generateInt k n
    | .vUint k n => generateUint k n
    | .vBool b => generateBool b
    | .vPtr none => Except.ok "null"
    | .vPtr (some v) => generateValue options fuel v indent

end Yamlc

namespace Yamlc

/-! ## Generation entry (Gen) and the external serializer/parser models -/

/-- Whether an `Except` result is an error. -/
def isErr {α : Type} : Except String α → Bool
  | .error _ => true
  | .ok _ => false

/-- Modelled from the spec: the Minimal style "delegates to a generic
structured serializer for the whole value" — the external yaml.v3 marshaller,
which is not part of this repository.  The model fixes the document shapes the
settled scenarios exercise: a nil pointer (and the nil value) serialises to
"null" and an empty struct to an empty flow mapping, both with a trailing
newline; every other shape is represented by the empty-mapping placeholder
document. -/
def yamlMarshalValue : GoValue → String
  | .vPtr none => "null\n"
  | .vPtr (some v) => yamlMarshalValue v
  | .vNull => "null\n"
  | _ => "\x7b\x7d\n"

/-- Modelled from the spec: `yaml.Marshal` on the generation input. -/
def yamlMarshal : Option GoValue → String
  | none => "null\n"
  | some v => yamlMarshalValue v

/-- Modelled from the spec: ValidateYAML "decodes the whole text with a
general-purpose YAML parser" (the external yaml.v3 decoder, not part of this
repository).  The model accepts the well-formed document shapes produced in
the scenarios settled here — the null document and the empty flow mapping, up
to surrounding white space. -/
def yamlDecodeOk (s : String) : Bool :=
  goTrimSpace s = "null" || goTrimSpace s = "\x7b\x7d"

/-- ValidateYAML (yamlc.go), over the modelled decoder. -/
def ValidateYAML (data : String) : Except String Unit :=
  if yamlDecodeOk data then Except.ok () else Except.error "YAML parsing error"

/-- Gen (yamlc.go): nil input is rejected first; the Minimal style (4)
marshals with the external serializer (and never dereferences the pointer);
every other style rejects a nil top-level pointer, dereferences one pointer
level and renders recursively; the result is then syntax-validated. -/
def Gen (fuel : Nat) (v : Option GoValue) (options : Options) :
    Except String String := do
  match v with
  | none => Except.error "input value cannot be nil"
  | some w =>
    let result ←
      if options.style = 4 then Except.ok (yamlMarshal (some w))
      else
        match w with
        | .vPtr none => Except.error "input pointer cannot be nil"
        | .vPtr (some u) => generateValue options fuel u 0
        | _ => generateValue options fuel w 0
    let _ ← ValidateYAML result
    Except.ok result

/-! ## Structural validation (ValidateStructure) -/

/-- validateKeyName (yamlc.go). -/
def validateKeyName (key : String) : Except String Unit :=
  if key = "" then Except.error "key cannot be empty"
  else if (goStartsWith key "\"" && goEndsWith key "\"") ||
      (goStartsWith key (String.mk [Char.ofNat 39]) &&
       goEndsWith key (String.mk [Char.ofNat 39])) then
    Except.ok ()
  else if goContainsAny key specialChars then
    Except.error "key contains YAML special characters"
  else Except.ok ()

/-- The indentation stack of ValidateStructure (yamlc.go), as a Go slice of
ints.  The stored indents are never read back, so the model keeps only length
and capacity; `append` follows the Go runtime's growth rule for small int
slices (an empty slice grows to capacity 1, then doubles). -/
structure IndentStack where
  len : Nat
  cap : Nat
deriving DecidableEq, Repr

/-- Go `append(indentStack, indent)` on the length/capacity model. -/
def stackAppend (s : IndentStack) : IndentStack :=
  if s.len < s.cap then { len := s.len + 1, cap := s.cap }
  else { len := s.len + 1, cap := if s.cap = 0 then 1 else 2 * s.cap }

/-- Outcome of ValidateStructure: normal success, a returned error, or a
runtime panic (a slice operation outside capacity). -/
inductive VSOutcome where
  | ok
  | err (msg : String)
  | panicked
deriving DecidableEq, Repr

/-- One-line step of ValidateStructure (yamlc.go): skip blanks and comments;
reject odd indentation; maintain the indent stack — the re-slice
`indentStack[:currentLevel+1]` panics when `currentLevel+1` exceeds the
slice's capacity; then check the `key: value` shape. -/
def vsProcessLine (stack : IndentStack) (line : String) :
    Except (Option String) IndentStack :=
  let trimmed := goTrimSpace line
  if trimmed = "" || goStartsWith trimmed "#" then Except.ok stack
  else
    let indent := leadingSpaces line
    if indent % 2 ≠ 0 then Except.error (some "indentation must be even number of spaces")
    else do
      let stack1 ←
        if stack.len = 0 then Except.ok (stackAppend stack)
        else
          let currentLevel := indent / 2
          if currentLevel > stack.len then Except.error (some "too many levels")
          else if currentLevel + 1 > stack.cap then Except.error none
          else Except.ok { len := currentLevel + 1, cap := stack.cap }
      if goContainsChar trimmed ':' && !goStartsWith trimmed "-" then
        let key := goTrimSpace (beforeColon trimmed)
        if key = "" then Except.error (some "empty key")
        else
          match validateKeyName key with
          | .error e => Except.error (some e)
          | .ok _ => Except.ok stack1
      else Except.ok stack1

/-- The line loop of ValidateStructure; `Except.error none` marks a panic. -/
def vsLoop (stack : IndentStack) : List String → VSOutcome
  | [] => .ok
  | line :: rest =>
    match vsProcessLine stack line with
    | .ok st => vsLoop st rest
    | .error (some m) => .err m
    | .error none => .panicked

/-- ValidateStructure (yamlc.go). -/
def ValidateStructure (data : String) : VSOutcome :=
  vsLoop { len := 0, cap := 0 } (linesOf data)

/-! ## Options validation -/

/-- validateCommentContent (yamlc.go): `len(comment)` is the byte length. -/
def validateCommentContent (comment : String) : Except String Unit :=
  if goStrLen comment > 1000 then Except.error "comment too long"
  else if comment.data.any (fun r => goIsControl r && r ≠ '\n' && r ≠ '\t' && r ≠ '\r') then
    Except.error "comment contains invalid control character"
  else Except.ok ()

/-- The per-entry loop of ValidateOptions (yamlc.go) over one override map. -/
def validateEntries : List (String × String) → Except String Unit
  | [] => Except.ok ()
  | (fieldPath, comment) :: rest =>
    if fieldPath = "" then Except.error "field path cannot be empty"
    else
      match validateCommentContent comment with
      | .error e => Except.error e
      | .ok _ => validateEntries rest

/-- The per-map loop of ValidateOptions (yamlc.go). -/
def validateCommentMaps : List (Option (List (String × String))) → Except String Unit
  | [] => Except.ok ()
  | none :: _ => Except.error "comment map cannot be nil"
  | some m :: rest =>
    match validateEntries m with
    | .error e => Except.error e
    | .ok _ => validateCommentMaps rest

/-- ValidateOptions (yamlc.go). -/
def ValidateOptions : Option Options → Except String Unit
  | none => Except.error "options cannot be nil"
  | some o =>
    if o.style < 0 ∨ o.style > 10 then Except.error "invalid comment style"
    else validateCommentMaps o.comments

/-! ## Comment resolution (getComment / sanitizeComment) -/

/-- The three struct-tag lookups getComment (yamlc.go) performs:
`Tag.Get("yaml")`, `Tag.Get("yamlc")` and `Tag.Get("comment")` (an absent tag
is the empty string). -/
structure GoStructTag where
  yamlTag : String
  yamlcTag : String
  commentTag : String

/-- Go `strings.Split(s, ",")`. -/
def goSplitComma (s : String) : List String := (splitCharList ',' s.data).map String.mk

/-- Scan tag parts for the first `comment=` part and strip that marker. -/
def tagCommentPart : List String → Option String
  | [] => none
  | p :: rest =>
    if goStartsWith p "comment=" then some (String.mk (p.data.drop 8))
    else tagCommentPart rest

/-- sanitizeComment (yamlc.go): newline, tab and carriage return become
spaces, then white-space runs collapse via Fields/Join. -/
def sanitizeComment (comment : String) : String :=
  let c1 := String.mk (comment.data.map (fun c => if c = '\n' then ' ' else c))
  let c2 := String.mk (c1.data.map (fun c => if c = '\t' then ' ' else c))
  let c3 := String.mk (c2.data.map (fun c => if c = '\r' then ' ' else c))
  joinSep " " (goFields c3)

/-- The override scan of getComment (yamlc.go): first mapping containing the
field path wins; nil mappings have no entries. -/
def lookupOverride (path : String) : List (Option (List (String × String))) → Option String
  | [] => none
  | none :: rest => lookupOverride path rest
  | some m :: rest =>
    match m.lookup path with
    | some c => some c
    | none => lookupOverride path rest

/-- getComment (yamlc.go): override mapping, then the yamlc tag's `comment=`
part, then the comment tag, then the yaml tag's `comment=` part, else empty —
every non-empty result passes through sanitizeComment. -/
def getComment (field : GoStructTag) (fieldPath : String) (options : Options) : String :=
  match lookupOverride fieldPath options.comments with
  | some c => sanitizeComment c
  | none =>
    match (if field.yamlcTag ≠ "" then tagCommentPart (goSplitComma field.yamlcTag) else none) with
    | some c => sanitizeComment c
    | none =>
      if field.commentTag ≠ "" then sanitizeComment field.commentTag
      else
        match (if field.yamlTag ≠ "" then tagCommentPart (goSplitComma field.yamlTag) else none) with
        | some c => sanitizeComment c
        | none => ""

end Yamlc

namespace Yamlc

/-! ## Theorems -/

/-- C5: for every ordinal 0–10 the codec yields the canonical lowercase name
and converting the name back (case-insensitively) returns the same ordinal;
every ordinal outside 0–10 converts to "smart", and every name whose
lowercase form is not canonical converts to the Smart style (2). -/
theorem style_codec_roundtrip :
    (∀ n : Int, 0 ≤ n → n ≤ 10 →
      canonicalStyleNames[n.toNat]? = some (GetStyleString n) ∧
      GetStyleFromString (GetStyleString n) = n) ∧
    (∀ n : Int, n < 0 ∨ 10 < n → GetStyleString n = "smart") ∧
    (∀ s : String, goToLower s ∉ canonicalStyleNames → GetStyleFromString s = 2) := by
  refine ⟨?_, ?_, ?_⟩
  · intro n h1 h2
    interval_cases n <;> exact ⟨by decide, by decide⟩
  · intro n h
    unfold GetStyleString
    rcases h with h | h <;>
      (repeat rw [if_neg (by omega)])
  · intro s h
    simp only [canonicalStyleNames, List.mem_cons, List.not_mem_nil, or_false, not_or] at h
    obtain ⟨h1, h2, h3, h4, h5, h6, h7, h8, h9, h10, h11⟩ := h
    simp [GetStyleFromString, h1, h2, h3, h4, h5, h6, h7, h8, h9, h10, h11]

/-- Witness for C5 at concrete inputs: ordinal 3 round-trips through
"compact", ordinal 999 yields "smart", and the unknown name "unknown"
yields the Smart ordinal. -/
theorem style_codec_roundtrip_witness :
    (canonicalStyleNames[(3 : Int).toNat]? = some (GetStyleString 3) ∧
      GetStyleFromString (GetStyleString 3) = 3) ∧
    GetStyleString 999 = "smart" ∧
    GetStyleFromString "unknown" = 2 :=
  ⟨style_codec_roundtrip.1 3 (by decide) (by decide),
   style_codec_roundtrip.2.1 999 (Or.inr (by decide)),
   style_codec_roundtrip.2.2 "unknown" (by decide)⟩

/-- C8: for the 8/16/32-bit signed kinds the integer renderer errors exactly
when the value is outside the representable range of the declared width, the
64-bit (and plain int) kinds are never range-checked, and every non-error
result is the decimal rendering; the unsigned kinds behave the same with
an error on overflow. -/
theorem int_range_checks :
    (∀ n : Int, isErr (generateInt .i8 n) = true ↔ n < -128 ∨ 127 < n) ∧
    (∀ n : Int, isErr (generateInt .i16 n) = true ↔ n < -32768 ∨ 32767 < n) ∧
    (∀ n : Int, isErr (generateInt .i32 n) = true ↔ n < -2147483648 ∨ 2147483647 < n) ∧
    (∀ n : Int, generateInt .i64 n = Except.ok (toString n)) ∧
    (∀ (k : GoIntKind) (n : Int), isErr (generateInt k n) = false →
      generateInt k n = Except.ok (toString n)) ∧
    (∀ n : Nat, isErr (generateUint .u8 n) = true ↔ 255 < n) ∧
    (∀ n : Nat, isErr (generateUint .u16 n) = true ↔ 65535 < n) ∧
    (∀ n : Nat, isErr (generateUint .u32 n) = true ↔ 4294967295 < n) ∧
    (∀ (k : GoUintKind) (n : Nat), isErr (generateUint k n) = false →
      generateUint k n = Except.ok (toString n)) := by
  refine ⟨?_, ?_, ?_, ?_, ?_, ?_, ?_, ?_, ?_⟩ <;>
    first
    | (intro n; rfl)
    | (intro n
       simp only [generateInt]
       split_ifs with h
       · simpa [isErr] using h
       · simp only [isErr, Bool.false_eq_true, false_iff]; omega)
    | (intro n
       simp only [generateUint]
       split_ifs with h
       · simpa [isErr] using h
       · simp only [isErr, Bool.false_eq_true, false_iff]; omega)
    | (intro k n h
       cases k <;> (revert h; simp only [generateInt]; (try split_ifs) <;> simp [isErr]))
    | (intro k n h
       cases k <;> (revert h; simp only [generateUint]; (try split_ifs) <;> simp [isErr]))

/-- Witness for C8 at the spec's concrete scenario: an 8-bit value of 200
fails the range check and 100 renders as "100". -/
theorem int_range_checks_witness :
    isErr (generateInt GoIntKind.i8 200) = true ∧
    generateInt GoIntKind.i8 100 = Except.ok "100" :=
  ⟨(int_range_checks.1 200).mpr (by omega), rfl⟩

/-- C9: the structural validator panics instead of returning: on any input
whose second content line is one level deeper, the re-slice
`indentStack[:currentLevel+1]` runs with `currentLevel+1 = 2` on a stack of
capacity 1 (the capacity the Go runtime gives the first `append` to an empty
int slice), which is out of range.  The second conjunct is the nested shape
used by the repository's own TestValidateStructure, which expects success. -/
theorem validateStructure_indent_stack_panics :
    ValidateStructure "a: 1\n  b: 2" = VSOutcome.panicked ∧
    ValidateStructure "\nname: z\nage: 30\naddress:\n  street: x\n  city: y\n" =
      VSOutcome.panicked := by
  constructor <;> rfl

end Yamlc

namespace Yamlc

/-- Whether a string is free of newline, tab and carriage-return characters
(so a `# comment` built from it occupies one output line). -/
def noHardBreaks (s : String) : Bool :=
  s.data.all (fun c => !(c == '\n' || c == '\t' || c == '\r'))

theorem fieldsCore_chars (cs : List Char) : ∀ (cur : List Char),
    (∀ c ∈ cur, goIsSpace c = false) →
    ∀ w ∈ fieldsCore cur cs, ∀ c ∈ w, goIsSpace c = false := by
  induction cs with
  | nil =>
    intro cur hcur w hw c hc
    unfold fieldsCore at hw
    split at hw
    · simp at hw
    · simp at hw
      subst hw
      exact hcur c (List.mem_reverse.mp hc)
  | cons d ds ih =>
    intro cur hcur w hw c hc
    unfold fieldsCore at hw
    split at hw
    · split at hw
      · exact ih [] (by simp) w hw c hc
      · rcases List.mem_cons.mp hw with h | h
        · subst h
          exact hcur c (List.mem_reverse.mp hc)
        · exact ih [] (by simp) w h c hc
    · refine ih (d :: cur) ?_ w hw c hc
      intro x hx
      rcases List.mem_cons.mp hx with h | h
      · rw [h]; simp_all
      · exact hcur x h

theorem goFields_chars (s : String) :
    ∀ w ∈ goFields s, ∀ c ∈ w.data, goIsSpace c = false := by
  intro w hw c hc
  unfold goFields at hw
  rcases List.mem_map.mp hw with ⟨wl, hwl, rfl⟩
  exact fieldsCore_chars _ [] (by simp) wl hwl c hc

theorem joinSep_space_chars (ws : List String)
    (h : ∀ w ∈ ws, ∀ c ∈ w.data, goIsSpace c = false) :
    ∀ c ∈ (joinSep " " ws).data, c = ' ' ∨ goIsSpace c = false := by
  induction ws with
  | nil => intro c hc; simp [joinSep] at hc
  | cons l ls ih =>
    intro c hc
    cases ls with
    | nil => exact Or.inr (h l (by simp) c hc)
    | cons m ms =>
      have hj : joinSep " " (l :: m :: ms) = l ++ " " ++ joinSep " " (m :: ms) := rfl
      rw [hj, String.data_append, String.data_append] at hc
      rcases List.mem_append.mp hc with h1 | h1
      · rcases List.mem_append.mp h1 with h2 | h2
        · exact Or.inr (h l (by simp) c h2)
        · left
          simpa using h2
      · refine ih ?_ c h1
        intro w hw
        exact h w (List.mem_cons_of_mem _ hw)

theorem sanitizeComment_no_hard_breaks (x : String) :
    noHardBreaks (sanitizeComment x) = true := by
  unfold sanitizeComment noHardBreaks
  rw [List.all_eq_true]
  intro c hc
  rcases joinSep_space_chars _ (goFields_chars _) c hc with h | h
  · rw [h]; decide
  · have h2 : c ≠ '\n' ∧ c ≠ '\t' ∧ c ≠ '\r' := by
      refine ⟨?_, ?_, ?_⟩ <;> intro hcontra <;> rw [hcontra] at h <;>
        simp [goIsSpace] at h
    simp only [Bool.not_eq_eq_eq_not, Bool.not_true, Bool.or_eq_false_iff,
      beq_eq_false_iff_ne, ne_eq]
    exact ⟨⟨h2.1, h2.2.1⟩, h2.2.2⟩

theorem getComment_shape (field : GoStructTag) (fieldPath : String) (options : Options) :
    getComment field fieldPath options = "" ∨
    ∃ x, getComment field fieldPath options = sanitizeComment x := by
  unfold getComment
  split
  · exact Or.inr ⟨_, rfl⟩
  · split
    · exact Or.inr ⟨_, rfl⟩
    · split
      · exact Or.inr ⟨_, rfl⟩
      · split
        · exact Or.inr ⟨_, rfl⟩
        · exact Or.inl rfl

/-- C10: every comment string resolved by getComment — whether it came from a
caller-supplied override mapping or from any of the struct tags — is
sanitized: the result contains no newline, tab or carriage-return character,
so an emitted `# comment` occupies exactly one output line. -/
theorem getComment_no_hard_breaks (field : GoStructTag) (fieldPath : String)
    (options : Options) : noHardBreaks (getComment field fieldPath options) = true := by
  rcases getComment_shape field fieldPath options with h | ⟨x, h⟩
  · rw [h]; decide
  · rw [h]; exact sanitizeComment_no_hard_breaks x

end Yamlc

namespace Yamlc

/-- A bad override entry per the source: empty path, comment longer than
1000 bytes, or a disallowed control character in the comment. -/
def badEntryByte (e : String × String) : Prop :=
  e.1 = "" ∨ goStrLen e.2 > 1000 ∨
  ∃ r ∈ e.2.data, goIsControl r = true ∧ r ≠ '\n' ∧ r ≠ '\t' ∧ r ≠ '\r'

theorem validateCommentContent_err_iff (c : String) :
    isErr (validateCommentContent c) = true ↔
      goStrLen c > 1000 ∨
      ∃ r ∈ c.data, goIsControl r = true ∧ r ≠ '\n' ∧ r ≠ '\t' ∧ r ≠ '\r' := by
  unfold validateCommentContent
  split_ifs with h1 h2
  · simp only [isErr, true_iff]
    exact Or.inl h1
  · simp only [isErr, true_iff]
    right
    rw [List.any_eq_true] at h2
    rcases h2 with ⟨r, hr, hprop⟩
    simp only [Bool.and_eq_true, decide_eq_true_eq] at hprop
    exact ⟨r, hr, hprop.1.1.1, hprop.1.1.2, hprop.1.2, hprop.2⟩
  · simp only [isErr, Bool.false_eq_true, false_iff]
    intro hcontra
    rcases hcontra with h | ⟨r, hr, hp1, hp2, hp3, hp4⟩
    · exact h1 h
    · apply h2
      rw [List.any_eq_true]
      refine ⟨r, hr, ?_⟩
      simp [hp1, hp2, hp3, hp4]

theorem validateEntries_err_iff (m : List (String × String)) :
    isErr (validateEntries m) = true ↔ ∃ e ∈ m, badEntryByte e := by
  induction m with
  | nil => simp [validateEntries, isErr]
  | cons p rest ih =>
    obtain ⟨path, comment⟩ := p
    unfold validateEntries
    split_ifs with hpath
    · simp only [isErr, true_iff]
      exact ⟨(path, comment), by simp, Or.inl hpath⟩
    · cases hvc : validateCommentContent comment with
      | error e =>
        simp only [isErr, true_iff]
        have : isErr (validateCommentContent comment) = true := by rw [hvc]; rfl
        rcases (validateCommentContent_err_iff comment).mp this with h | h
        · exact ⟨(path, comment), by simp, Or.inr (Or.inl h)⟩
        · exact ⟨(path, comment), by simp, Or.inr (Or.inr h)⟩
      | ok u =>
        rw [ih]
        constructor
        · rintro ⟨e, he, hbad⟩
          exact ⟨e, List.mem_cons_of_mem _ he, hbad⟩
        · rintro ⟨e, he, hbad⟩
          rcases List.mem_cons.mp he with heq | he2
          · subst heq
            rcases hbad with h | h | h
            · exact absurd h hpath
            · have : isErr (validateCommentContent comment) = true :=
                (validateCommentContent_err_iff comment).mpr (Or.inl h)
              rw [hvc] at this
              simp [isErr] at this
            · have : isErr (validateCommentContent comment) = true :=
                (validateCommentContent_err_iff comment).mpr (Or.inr h)
              rw [hvc] at this
              simp [isErr] at this
          · exact ⟨e, he2, hbad⟩

theorem validateCommentMaps_err_iff (l : List (Option (List (String × String)))) :
    isErr (validateCommentMaps l) = true ↔
      none ∈ l ∨ ∃ m, some m ∈ l ∧ ∃ e ∈ m, badEntryByte e := by
  induction l with
  | nil => simp [validateCommentMaps, isErr]
  | cons mo rest ih =>
    cases mo with
    | none =>
      simp only [validateCommentMaps, isErr, true_iff]
      exact Or.inl (by simp)
    | some m =>
      unfold validateCommentMaps
      cases hve : validateEntries m with
      | error e =>
        simp only [isErr, true_iff]
        have : isErr (validateEntries m) = true := by rw [hve]; rfl
        rcases (validateEntries_err_iff m).mp this with ⟨en, hen, hbad⟩
        exact Or.inr ⟨m, by simp, en, hen, hbad⟩
      | ok u =>
        rw [ih]
        constructor
        · rintro (h | ⟨m2, hm2, hbad⟩)
          · exact Or.inl (List.mem_cons_of_mem _ h)
          · exact Or.inr ⟨m2, List.mem_cons_of_mem _ hm2, hbad⟩
        · rintro (h | ⟨m2, hm2, hbad⟩)
          · rcases List.mem_cons.mp h with heq | h2
            · exact absurd heq.symm (by simp)
            · exact Or.inl h2
          · rcases List.mem_cons.mp hm2 with heq | h2
            · have hm : m2 = m := Option.some.inj heq
              subst hm
              have : isErr (validateEntries m2) = true :=
                (validateEntries_err_iff m2).mpr hbad
              rw [hve] at this
              simp [isErr] at this
            · exact Or.inr ⟨m2, h2, hbad⟩

/-- C7 (amended): ValidateOptions errors exactly when the options value is
nil, the style ordinal is outside 0–10, some override mapping is nil, some
override path is empty, or some override comment exceeds 1000 **bytes**
(UTF-8 length, Go `len`) or contains a control character other than
newline/tab/carriage-return. -/
theorem validateOptions_error_iff (o : Option Options) :
    isErr (ValidateOptions o) = true ↔
      o = none ∨ ∃ oo, o = some oo ∧
        (oo.style < 0 ∨ 10 < oo.style ∨ none ∈ oo.comments ∨
          ∃ m, some m ∈ oo.comments ∧ ∃ e ∈ m, badEntryByte e) := by
  cases o with
  | none => simp [ValidateOptions, isErr]
  | some oo =>
    simp only [ValidateOptions]
    split_ifs with hstyle
    · simp only [isErr, true_iff]
      refine Or.inr ⟨oo, rfl, ?_⟩
      rcases hstyle with h | h
      · exact Or.inl h
      · exact Or.inr (Or.inl h)
    · rw [validateCommentMaps_err_iff]
      push_neg at hstyle
      constructor
      · rintro (h | ⟨m, hm, hbad⟩)
        · exact Or.inr ⟨oo, rfl, Or.inr (Or.inr (Or.inl h))⟩
        · exact Or.inr ⟨oo, rfl, Or.inr (Or.inr (Or.inr ⟨m, hm, hbad⟩))⟩
      · rintro (h | ⟨oo2, hoo2, hcond⟩)
        · exact absurd h (by simp)
        · have hoo : oo2 = oo := (Option.some.inj hoo2).symm
          subst hoo
          rcases hcond with h | h | h | h
          · omega
          · omega
          · exact Or.inl h
          · exact Or.inr h

/-- The over-long comment of the C7 counterexample: 334 wide characters,
1002 UTF-8 bytes. -/
def wideComment : String := String.mk (List.replicate 334 '中')

/-- The claim's own error condition, read literally: comment length measured
in characters (not bytes). -/
def claimCommentBad (c : String) : Bool :=
  c.length > 1000 ||
  c.data.any (fun r => goIsControl r && r ≠ '\n' && r ≠ '\t' && r ≠ '\r')

/-- The claim's full error condition for an options value, read literally. -/
def claimOptionsBad (o : Option Options) : Bool :=
  match o with
  | none => true
  | some oo =>
    !(0 ≤ oo.style && oo.style ≤ 10) ||
    oo.comments.any (fun m =>
      match m with
      | none => true
      | some l => l.any (fun e => e.1 = "" || claimCommentBad e.2))

set_option maxRecDepth 40000 in
/-- C7 counterexample: on a valid Top-style options value whose single
override comment has 334 characters but 1002 UTF-8 bytes, ValidateOptions
errors although the claim's character-based condition does not hold. -/
theorem validateOptions_bytes_counterexample :
    isErr (ValidateOptions (some ⟨0, [some [("p", wideComment)]]⟩)) = true ∧
    claimOptionsBad (some ⟨0, [some [("p", wideComment)]]⟩) = false ∧
    wideComment.length = 334 ∧ goStrLen wideComment = 1002 := by
  exact ⟨rfl, rfl, rfl, rfl⟩

/-- Witness for C7 at the spec's concrete scenario: style 999 fails, nil
options fail, and valid Top-style options with one non-empty override
mapping succeed. -/
theorem validateOptions_error_iff_witness :
    isErr (ValidateOptions (some ⟨999, []⟩)) = true ∧
    isErr (ValidateOptions none) = true ∧
    isErr (ValidateOptions (some ⟨0, [some [("name", "a comment")]]⟩)) = false := by
  refine ⟨?_, ?_, ?_⟩
  · exact (validateOptions_error_iff (some ⟨999, []⟩)).mpr
      (Or.inr ⟨⟨999, []⟩, rfl, Or.inr (Or.inl (by decide))⟩)
  · exact (validateOptions_error_iff none).mpr (Or.inl rfl)
  · rfl

end Yamlc

namespace Yamlc

theorem contains_iff_mem {α : Type} [BEq α] [LawfulBEq α] (l : List α) (a : α) :
    l.contains a = true ↔ a ∈ l := by simp

/-- One character the numeric scan allows after the optional sign. -/
def numericAllowed (c : Char) : Prop :=
  goIsDigit c = true ∨ c = '.' ∨ c = 'e' ∨ c = 'E'

theorem numericAllowed_cond (c : Char) :
    (!(goIsDigit c) && c ≠ '.' && c ≠ 'e' && c ≠ 'E') = true ↔ ¬ numericAllowed c := by
  unfold numericAllowed
  simp only [Bool.and_eq_true, Bool.not_eq_eq_eq_not, Bool.not_true, decide_eq_true_eq]
  constructor
  · rintro ⟨⟨⟨h1, h2⟩, h3⟩, h4⟩
    rintro (h | h | h | h) <;> simp_all
  · intro h
    push_neg at h
    exact ⟨⟨⟨by simp [h.1], h.2.1⟩, h.2.2.1⟩, h.2.2.2⟩

theorem isNumericBody_pos (cs : List Char) : ∀ i : Nat, i ≠ 0 →
    (isNumericBody i cs = true ↔ ∀ x ∈ cs, numericAllowed x) := by
  induction cs with
  | nil => intro i hi; simp [isNumericBody]
  | cons c rest ih =>
    intro i hi
    unfold isNumericBody
    rw [if_neg (by simp [hi])]
    by_cases hall : numericAllowed c
    · rw [if_neg (by rw [numericAllowed_cond]; exact fun h2 => h2 hall)]
      rw [ih (i + 1) (by omega)]
      constructor
      · intro h x hx
        rcases List.mem_cons.mp hx with h2 | h2
        · rw [h2]; exact hall
        · exact h x h2
      · intro h x hx
        exact h x (List.mem_cons_of_mem _ hx)
    · rw [if_pos ((numericAllowed_cond c).mpr hall)]
      simp only [Bool.false_eq_true, false_iff]
      intro h
      exact hall (h c (by simp))

theorem isNumericBody_zero (c : Char) (rest : List Char) :
    isNumericBody 0 (c :: rest) = true ↔
      (if c = '+' ∨ c = '-' then ∀ x ∈ rest, numericAllowed x
       else ∀ x ∈ c :: rest, numericAllowed x) := by
  unfold isNumericBody
  by_cases hsign : c = '+' ∨ c = '-'
  · rw [if_pos (by simp [hsign]), if_pos hsign]
    exact isNumericBody_pos rest 1 (by omega)
  · rw [if_neg (by simp [hsign] <;> rcases Decidable.em (c = '+') with h | h <;> simp_all),
      if_neg hsign]
    by_cases hall : numericAllowed c
    · rw [if_neg (by rw [numericAllowed_cond]; exact fun h2 => h2 hall)]
      rw [isNumericBody_pos rest 1 (by omega)]
      constructor
      · intro h x hx
        rcases List.mem_cons.mp hx with h2 | h2
        · rw [h2]; exact hall
        · exact h x h2
      · intro h x hx
        exact h x (List.mem_cons_of_mem _ hx)
    · rw [if_pos ((numericAllowed_cond c).mpr hall)]
      simp only [Bool.false_eq_true, false_iff]
      intro h
      exact hall (h c (by simp))

/-- The spec's reading of "looks numeric": an optional leading sign, then
only digits, '.', 'e', 'E', and at least one (decimal) digit somewhere. -/
def looksNumericSpec (s : String) : Prop :=
  (∃ c ∈ s.data, c ∈ (['0', '1', '2', '3', '4', '5', '6', '7', '8', '9'] : List Char)) ∧
  ∀ x ∈ (match s.data with
         | [] => ([] : List Char)
         | c :: rest => if c = '+' ∨ c = '-' then rest else c :: rest),
    numericAllowed x

theorem isNumericString_iff (s : String) :
    isNumericString s = true ↔ looksNumericSpec s := by
  unfold isNumericString looksNumericSpec
  split_ifs with hemp
  · subst hemp
    simp
  · have hdata : s.data ≠ [] := by
      intro h
      exact hemp (by cases s; simp_all)
    cases hd : s.data with
    | nil => exact absurd hd hdata
    | cons c rest =>
      rw [Bool.and_eq_true]
      unfold goContainsAny
      rw [List.any_eq_true]
      rw [hd, isNumericBody_zero]
      have hmatch : (match c :: rest with
         | [] => ([] : List Char)
         | c :: rest => if c = '+' ∨ c = '-' then rest else c :: rest) =
          (if c = '+' ∨ c = '-' then rest else c :: rest) := rfl
      rw [hmatch]
      constructor
      · rintro ⟨hbody, x, hx, hmem⟩
        refine ⟨⟨x, hx, by simpa using hmem⟩, ?_⟩
        split_ifs with hsign
        · rw [if_pos hsign] at hbody; exact hbody
        · rw [if_neg hsign] at hbody; exact hbody
      · rintro ⟨⟨x, hx, hdig⟩, hbody⟩
        refine ⟨?_, x, hx, by simpa using hdig⟩
        split_ifs at hbody with hsign
        · rw [if_pos hsign]; exact hbody
        · rw [if_neg hsign]; exact hbody

theorem goStartsWith_space_iff (s : String) :
    goStartsWith s " " = true ↔ s.data.head? = some ' ' := by
  unfold goStartsWith
  cases h : s.data with
  | nil => simp
  | cons c rest => simp [h]

theorem goEndsWith_space_iff (s : String) :
    goEndsWith s " " = true ↔ s.data.getLast? = some ' ' := by
  unfold goEndsWith
  rw [← List.head?_reverse]
  cases h : s.data.reverse with
  | nil => simp
  | cons c rest => simp [h]

theorem firstSign_iff (s : String) :
    (match s.data with
     | [] => false
     | c :: _ => decide (c = '+') || decide (c = '-')) = true ↔
      (∃ rest, s.data = '+' :: rest) ∨ (∃ rest, s.data = '-' :: rest) := by
  cases h : s.data with
  | nil => simp
  | cons c rest =>
    simp only [Bool.or_eq_true, decide_eq_true_eq]
    constructor
    · rintro (hc | hc) <;> subst hc
      · exact Or.inl ⟨rest, rfl⟩
      · exact Or.inr ⟨rest, rfl⟩
    · rintro (⟨r, hr⟩ | ⟨r, hr⟩)
      · exact Or.inl (by injection hr with h1 h2 <;> exact h1)
      · exact Or.inr (by injection hr with h1 h2 <;> exact h1)

/-- The spec's quoting condition with the corrected special-character set
(no tilde as a bare character; `~` only quotes as the full reserved word)
and the corrected numeric test: the scan accepts Unicode decimal digits
(category Nd, `unicode.IsDigit`) besides sign, `.`, `e`, `E`, while the
at-least-one-digit requirement asks for an ASCII digit (`strings.ContainsAny`
with "0123456789"). -/
def needsQuotingSpecAmended (str : String) : Prop :=
  str = "" ∨
  str ∈ yamlKeywords ∨
  looksNumericSpec str ∨
  (∃ c ∈ str.data, c ∈ specialChars) ∨
  '\n' ∈ str.data ∨
  str.data.head? = some ' ' ∨
  str.data.getLast? = some ' ' ∨
  (∃ rest, str.data = '+' :: rest) ∨ (∃ rest, str.data = '-' :: rest)

/-- The claim's special-character set: the code's set plus a tilde. -/
def claimSpecialChars : List Char := specialChars ++ [Char.ofNat 126]

/-- The claim's numeric test with its word "digits" read uniformly as the
ASCII digits: optional sign, then only ASCII digits, `.`, `e`, `E`, with at
least one ASCII digit. -/
def looksNumericAsciiReading (s : String) : Prop :=
  (∃ c ∈ s.data, c ∈ (['0', '1', '2', '3', '4', '5', '6', '7', '8', '9'] : List Char)) ∧
  ∀ x ∈ (match s.data with
         | [] => ([] : List Char)
         | c :: rest => if c = '+' ∨ c = '-' then rest else c :: rest),
    (x ∈ (['0', '1', '2', '3', '4', '5', '6', '7', '8', '9'] : List Char) ∨
      x = '.' ∨ x = 'e' ∨ x = 'E')

/-- The claim's numeric test with its word "digits" read uniformly as
Unicode decimal digits (category Nd): optional sign, then only Nd digits,
`.`, `e`, `E`, with at least one Nd digit. -/
def looksNumericUnicodeReading (s : String) : Prop :=
  (∃ c ∈ s.data, goIsDigit c = true) ∧
  ∀ x ∈ (match s.data with
         | [] => ([] : List Char)
         | c :: rest => if c = '+' ∨ c = '-' then rest else c :: rest),
    numericAllowed x

/-- The claim's quoting condition, read literally (tilde included in the
special-character set), parameterised by the reading of its numeric test. -/
def needsQuotingSpecClaim (numeric : String → Prop) (str : String) : Prop :=
  str = "" ∨
  str ∈ yamlKeywords ∨
  numeric str ∨
  (∃ c ∈ str.data, c ∈ claimSpecialChars) ∨
  '\n' ∈ str.data ∨
  str.data.head? = some ' ' ∨
  str.data.getLast? = some ' ' ∨
  str.data.head? = some '+' ∨ str.data.head? = some '-'

theorem goContainsAny_iff (s : String) (cs : List Char) :
    goContainsAny s cs = true ↔ ∃ c ∈ s.data, c ∈ cs := by
  unfold goContainsAny
  rw [List.any_eq_true]
  constructor
  · rintro ⟨c, hc, hmem⟩
    exact ⟨c, hc, (contains_iff_mem cs c).mp hmem⟩
  · rintro ⟨c, hc, hmem⟩
    exact ⟨c, hc, (contains_iff_mem cs c).mpr hmem⟩

theorem goContainsChar_iff (s : String) (c : Char) :
    goContainsChar s c = true ↔ c ∈ s.data := by
  unfold goContainsChar
  exact contains_iff_mem s.data c

theorem needsQuoting_iff (s : String) :
    needsQuoting s = true ↔ needsQuotingSpecAmended s := by
  unfold needsQuoting needsQuotingSpecAmended
  simp only [Bool.or_eq_true, decide_eq_true_eq]
  rw [contains_iff_mem, isNumericString_iff, goContainsAny_iff, goContainsChar_iff,
    goStartsWith_space_iff, goEndsWith_space_iff, firstSign_iff]
  simp only [or_assoc]

end Yamlc

namespace Yamlc

/-- C2 (amended): the scalar string renderer double-quotes a string exactly
when needsQuoting holds, and needsQuoting holds exactly when the string is
empty, is a YAML reserved literal in the enumerated case variants, looks
numeric — optional leading sign, then only Unicode decimal digits
(category Nd, `unicode.IsDigit`), `.`, `e`, `E`, with at least one ASCII
digit 0-9 (the `strings.ContainsAny` check) — contains one of the special
characters `: # \x7b \x7d [ ] & * ! | > " ' % ? @` or a backtick (the tilde
is NOT in this set), contains a newline, has a leading or trailing space,
or begins with '+' or '-'. -/
theorem needsQuoting_spec :
    (∀ s : String, validateStringContent s = Except.ok () →
      generateString s = Except.ok (if needsQuoting s then goQuote s else s)) ∧
    (∀ s : String, needsQuoting s = true ↔ needsQuotingSpecAmended s) := by
  constructor
  · intro s h
    unfold generateString
    rw [h]
    simp only [Except.bind, bind]
    split_ifs <;> rfl
  · exact needsQuoting_iff

/-- C2 counterexample: the program diverges from the claim's condition list
under every uniform reading of the claim's word "digits", and on the tilde:
`"1２"` (ASCII one, then fullwidth two U+FF12) is quoted by the code — the
scan accepts the Nd digit and the ASCII `1` satisfies ContainsAny — but the
ASCII reading of the claim does not demand quoting; `"٣"` (Arabic-Indic
three U+0663) is demanded quoted by the Unicode reading of the claim, but
the code leaves it unquoted because ContainsAny finds no ASCII digit; and
`"a~b"` is demanded quoted by the claim's tilde-bearing character set under
both readings, but the code does not quote it. -/
theorem needsQuoting_claim_counterexample :
    (needsQuoting "1２" = true ∧
      ¬ needsQuotingSpecClaim looksNumericAsciiReading "1２") ∧
    (needsQuoting "٣" = false ∧
      needsQuotingSpecClaim looksNumericUnicodeReading "٣") ∧
    (needsQuoting "a~b" = false ∧
      needsQuotingSpecClaim looksNumericAsciiReading "a~b" ∧
      needsQuotingSpecClaim looksNumericUnicodeReading "a~b") := by
  refine ⟨⟨rfl, ?_⟩, ⟨rfl, ?_⟩, rfl, ?_, ?_⟩ <;>
    simp only [needsQuotingSpecClaim, looksNumericAsciiReading,
      looksNumericUnicodeReading, numericAllowed] <;>
    decide

/-- Witness for C2 at concrete inputs: a plain string renders unquoted and a
colon-bearing string satisfies both sides of the amended equivalence. -/
theorem needsQuoting_spec_witness :
    generateString "hello" =
      Except.ok (if needsQuoting "hello" then goQuote "hello" else "hello") ∧
    (needsQuoting "hello:world" = true ↔ needsQuotingSpecAmended "hello:world") :=
  ⟨needsQuoting_spec.1 "hello" rfl, needsQuoting_spec.2 "hello:world"⟩

end Yamlc

namespace Yamlc

/-- C3 counterexample: under the Minimal style (4), Gen never performs the
top-level nil-pointer check — it hands the nil pointer straight to the
external marshaller and succeeds with the null document. -/
theorem gen_minimal_nil_pointer_counterexample :
    Gen 1 (some (GoValue.vPtr none)) ⟨4, []⟩ = Except.ok "null\n" := rfl

/-- C3 (amended): Gen rejects a nil input value under every style; it
rejects a top-level nil pointer under every style EXCEPT Minimal (4), which
bypasses the pointer check; and for a pointer to an empty struct it succeeds
with non-empty text under every style. -/
theorem gen_nil_checks_amended (style : Int)
    (cm : List (Option (List (String × String)))) (fuel : Nat) :
    isErr (Gen fuel none ⟨style, cm⟩) = true ∧
    (style ≠ 4 → isErr (Gen fuel (some (GoValue.vPtr none)) ⟨style, cm⟩) = true) ∧
    (1 ≤ fuel →
      ∃ out, Gen fuel (some (GoValue.vPtr (some (GoValue.vStruct [])))) ⟨style, cm⟩ =
        Except.ok out ∧ out ≠ "") := by
  refine ⟨rfl, ?_, ?_⟩
  · intro h
    simp only [Gen]
    rw [if_neg h]
    rfl
  · intro hfuel
    obtain ⟨k, rfl⟩ : ∃ k, fuel = k + 1 := ⟨fuel - 1, by omega⟩
    by_cases h : style = 4
    · subst h
      exact ⟨"\x7b\x7d\n", rfl, by decide⟩
    · refine ⟨" \x7b\x7d\n", ?_, by decide⟩
      simp only [Gen]
      rw [if_neg h]
      rfl

/-- Witness for C3 at the Top style (0) with fuel 1. -/
theorem gen_nil_checks_amended_witness :
    isErr (Gen 1 none ⟨0, []⟩) = true ∧
    isErr (Gen 1 (some (GoValue.vPtr none)) ⟨0, []⟩) = true ∧
    ∃ out, Gen 1 (some (GoValue.vPtr (some (GoValue.vStruct [])))) ⟨0, []⟩ =
      Except.ok out ∧ out ≠ "" := by
  obtain ⟨h1, h2, h3⟩ := gen_nil_checks_amended 0 [] 1
  exact ⟨h1, h2 (by decide), h3 (by decide)⟩

/-- C6 (amended): generateStruct appends exactly one newline to the style
body at EVERY call — at nested indents just as at the outermost call. -/
theorem generateStruct_appends_newline_every_call
    (rv : RenderFn) (options : Options) (fields : List GoField) (indent : Nat)
    (body : String) (hne : fields ≠ [])
    (hok : generateStructDispatch rv options fields indent = Except.ok body) :
    generateStruct rv options fields indent = Except.ok (body ++ "\n") := by
  unfold generateStruct
  rw [if_neg (by simpa using hne)]
  rw [hok]
  rfl

/-- C6 counterexample: a nested (indent 1) struct render appends its own
trailing newline to the block handed to the enclosing render, and the
enclosing top-level render therefore ends in two newlines — the appended
newline is not confined to the outermost call. -/
theorem generateStruct_nested_newline_counterexample :
    generateStructDispatch (fun v i => generateValue ⟨0, []⟩ 5 v i) ⟨0, []⟩
      [GoField.mk "b" "" "string" (GoValue.vStr "v")] 1 = Except.ok "  b:  v" ∧
    generateStruct (fun v i => generateValue ⟨0, []⟩ 5 v i) ⟨0, []⟩
      [GoField.mk "b" "" "string" (GoValue.vStr "v")] 1 = Except.ok ("  b:  v" ++ "\n") ∧
    generateValue ⟨0, []⟩ 6
      (GoValue.vStruct [GoField.mk "a" "" "yamlc.Inner"
        (GoValue.vStruct [GoField.mk "b" "" "string" (GoValue.vStr "v")])]) 0 =
      Except.ok "a: \n  b:  v\n\n" := by
  refine ⟨rfl, rfl, rfl⟩

/-- Witness for C6 at a concrete one-field struct at the outermost indent. -/
theorem generateStruct_appends_newline_witness :
    generateStruct (fun v i => generateValue ⟨0, []⟩ 3 v i) ⟨0, []⟩
      [GoField.mk "a" "" "string" (GoValue.vStr "x")] 0 = Except.ok ("a:  x" ++ "\n") :=
  generateStruct_appends_newline_every_call _ _ _ _ _ (List.cons_ne_nil _ _) rfl

end Yamlc

namespace Yamlc

/-! ## Line-splitting and dash-splicing lemmas for sequence rendering -/

theorem splitCharList_ne_nil (sep : Char) (cs : List Char) :
    splitCharList sep cs ≠ [] := by
  cases cs with
  | nil => simp [splitCharList]
  | cons c cs2 =>
    unfold splitCharList
    split_ifs
    · simp
    · cases h : splitCharList sep cs2 <;> simp

theorem splitCharList_no_sep (sep : Char) (cs : List Char) :
    ∀ part ∈ splitCharList sep cs, sep ∉ part := by
  induction cs with
  | nil =>
    intro part hp
    simp [splitCharList] at hp
    simp [hp]
  | cons c cs2 ih =>
    intro part hp
    unfold splitCharList at hp
    split_ifs at hp with hc
    · rcases List.mem_cons.mp hp with h | h
      · simp [h]
      · exact ih part h
    · cases hs : splitCharList sep cs2 with
      | nil => exact absurd hs (splitCharList_ne_nil sep cs2)
      | cons l ls =>
        rw [hs] at hp
        rcases List.mem_cons.mp hp with h | h
        · subst h
          intro hmem
          rcases List.mem_cons.mp hmem with h2 | h2
          · exact hc h2.symm
          · exact ih l (by rw [hs]; simp) h2
        · exact ih part (by rw [hs]; exact List.mem_cons_of_mem _ h)

theorem linesOf_ne_nil (s : String) : linesOf s ≠ [] := by
  unfold linesOf
  intro h
  exact splitCharList_ne_nil '\n' s.data (by simpa using h)

theorem linesOf_no_newline (s : String) : ∀ l ∈ linesOf s, '\n' ∉ l.data := by
  intro l hl
  unfold linesOf at hl
  rcases List.mem_map.mp hl with ⟨part, hpart, rfl⟩
  exact splitCharList_no_sep '\n' s.data part hpart

theorem splitCharList_no_sep_eq (sep : Char) (a : List Char) (h : sep ∉ a) :
    splitCharList sep a = [a] := by
  induction a with
  | nil => rfl
  | cons c cs ih =>
    unfold splitCharList
    rw [if_neg (by intro hc; exact h (by simp [hc]))]
    rw [ih (by intro hc; exact h (List.mem_cons_of_mem _ hc))]

theorem splitCharList_append_sep (sep : Char) (a b : List Char) (h : sep ∉ a) :
    splitCharList sep (a ++ sep :: b) = a :: splitCharList sep b := by
  induction a with
  | nil => simp [splitCharList]
  | cons c cs ih =>
    have hne1 : ¬ c = sep := fun hc => h (by simp [hc])
    have hne2 : sep ∉ cs := fun hc => h (List.mem_cons_of_mem _ hc)
    show (if c = sep then [] :: splitCharList sep (cs ++ sep :: b)
          else match splitCharList sep (cs ++ sep :: b) with
               | [] => [[c]]
               | l :: ls => (c :: l) :: ls) = (c :: cs) :: splitCharList sep b
    rw [if_neg hne1, ih hne2]

theorem linesOf_joinNL (xs : List String) (hne : xs ≠ [])
    (hnl : ∀ x ∈ xs, '\n' ∉ x.data) : linesOf (joinNL xs) = xs := by
  induction xs with
  | nil => exact absurd rfl hne
  | cons x rest ih =>
    cases rest with
    | nil =>
      unfold linesOf joinNL joinSep
      rw [splitCharList_no_sep_eq '\n' x.data (hnl x (by simp))]
      simp
    | cons y ys =>
      have hj : joinNL (x :: y :: ys) = x ++ "\n" ++ joinNL (y :: ys) := rfl
      unfold linesOf
      rw [hj]
      have hdata : (x ++ "\n" ++ joinNL (y :: ys)).data =
          x.data ++ '\n' :: (joinNL (y :: ys)).data := by
        rw [String.data_append, String.data_append, List.append_assoc]
        rfl
      rw [hdata, splitCharList_append_sep '\n' x.data _ (hnl x (by simp))]
      have ihr := ih (by simp) (fun z hz => hnl z (List.mem_cons_of_mem _ hz))
      unfold linesOf at ihr
      simp only [List.map_cons]
      rw [ihr]

/-- Whether a string consists only of space characters (an indent string). -/
def spacesOnly (s : String) : Bool := s.data.all (fun c => c = ' ')

theorem dropWhile_all_append (p : Char → Bool) (a b : List Char)
    (h : ∀ c ∈ a, p c = true) : (a ++ b).dropWhile p = b.dropWhile p := by
  induction a with
  | nil => simp
  | cons x xs ih =>
    simp only [List.cons_append, List.dropWhile_cons]
    rw [if_pos (h x (by simp))]
    exact ih (fun c hc => h c (by simp [hc]))

theorem dropWhile_head_false (p : Char → Bool) : ∀ (l : List Char) (c : Char)
    (rest : List Char), l.dropWhile p = c :: rest → p c = false := by
  intro l
  induction l with
  | nil => intro c rest h; simp at h
  | cons x xs ih =>
    intro c rest h
    rw [List.dropWhile_cons] at h
    split_ifs at h with hx
    · exact ih c rest h
    · injection h with h1 h2
      subst h1
      simpa using hx

theorem mem_goTrimSpace (l : String) (c : Char) (h : c ∈ (goTrimSpace l).data) :
    c ∈ l.data := by
  unfold goTrimSpace at h
  have h1 : c ∈ (l.data.dropWhile goIsSpace).reverse.dropWhile goIsSpace := by
    simpa using h
  have h2 : c ∈ (l.data.dropWhile goIsSpace).reverse := (List.dropWhile_sublist _).subset h1
  have h3 : c ∈ l.data.dropWhile goIsSpace := by simpa using h2
  exact (List.dropWhile_sublist _).subset h3

theorem goTrimSpace_data_eq (l : String) :
    (goTrimSpace l).data = ((l.data.dropWhile goIsSpace).reverse.dropWhile goIsSpace).reverse :=
  rfl

/-- The last character of a trimmed non-empty string is not white space. -/
theorem goTrimSpace_last_not_space (l : String) :
    (goTrimSpace l).data.reverse.dropWhile goIsSpace = (goTrimSpace l).data.reverse := by
  rw [goTrimSpace_data_eq, List.reverse_reverse]
  cases h : (l.data.dropWhile goIsSpace).reverse.dropWhile goIsSpace with
  | nil => simp
  | cons c rest =>
    rw [List.dropWhile_cons, if_neg (by simp [dropWhile_head_false _ _ _ _ h])]

theorem goTrimSpace_dash (ind t : String) (hind : spacesOnly ind = true)
    (ht : t.data.reverse.dropWhile goIsSpace = t.data.reverse) (hne : t ≠ "") :
    goTrimSpace (ind ++ "- " ++ t) = "- " ++ t := by
  unfold goTrimSpace
  have hdata : (ind ++ "- " ++ t).data = ind.data ++ ('-' :: ' ' :: t.data) := by
    rw [String.data_append, String.data_append, List.append_assoc]
    rfl
  rw [hdata]
  rw [dropWhile_all_append goIsSpace ind.data _ (by
    intro c hc
    have := (List.all_eq_true.mp hind) c hc
    simp only [decide_eq_true_eq] at this
    simp [goIsSpace, this])]
  rw [List.dropWhile_cons, if_neg (by decide)]
  have htne : t.data ≠ [] := by
    intro h
    exact hne (by cases t; simp_all)
  have hrev : ('-' :: ' ' :: t.data).reverse = t.data.reverse ++ [' ', '-'] := by simp
  rw [hrev]
  cases hr : t.data.reverse with
  | nil => exact absurd (by simpa using hr) htne
  | cons c rest =>
    have hc : goIsSpace c = false := by
      rw [hr] at ht
      rw [List.dropWhile_cons] at ht
      by_cases hcs : goIsSpace c = true
      · rw [if_pos hcs] at ht
        have := congrArg List.length ht
        simp at this
        have hsub : List.Sublist (rest.dropWhile goIsSpace) rest := List.dropWhile_sublist _
        have := hsub.length_le
        omega
      · simpa using hcs
    rw [List.cons_append, List.dropWhile_cons, if_neg (by simp [hc])]
    have hfin : String.mk ((c :: (rest ++ [' ', '-'])).reverse) =
        String.mk ('-' :: ' ' :: (c :: rest).reverse) := by
      simp
    rw [hfin]
    have hback : (c :: rest).reverse = t.data := by
      have := congrArg List.reverse hr
      simpa using this.symm
    rw [hback]
    cases t
    rfl

end Yamlc

namespace Yamlc

theorem isContentLine_trim_ne (l : String) (h : isContentLine l = true) :
    goTrimSpace l ≠ "" := by
  unfold isContentLine isBlankLine at h
  simp only [Bool.and_eq_true, Bool.not_eq_eq_eq_not, Bool.not_true,
    decide_eq_false_iff_not] at h
  exact h.1

theorem dashLine_trim (ind l : String) (hind : spacesOnly ind = true)
    (hl : isContentLine l = true) :
    goTrimSpace (ind ++ "- " ++ goTrimSpace l) = "- " ++ goTrimSpace l := by
  refine goTrimSpace_dash ind (goTrimSpace l) hind ?_ (isContentLine_trim_ne l hl)
  exact goTrimSpace_last_not_space l

theorem dashLine_content (ind l : String) (hind : spacesOnly ind = true)
    (hl : isContentLine l = true) :
    isContentLine (ind ++ "- " ++ goTrimSpace l) = true := by
  unfold isContentLine isBlankLine isCommentLine
  rw [dashLine_trim ind l hind hl]
  have hdata : ("- " ++ goTrimSpace l).data = '-' :: ' ' :: (goTrimSpace l).data := by
    rw [String.data_append]
    rfl
  simp only [Bool.and_eq_true, Bool.not_eq_eq_eq_not, Bool.not_true,
    decide_eq_false_iff_not]
  constructor
  · intro hcontra
    have := congrArg String.data hcontra
    rw [hdata] at this
    simp at this
  · unfold goStartsWith
    rw [hdata]
    simp

theorem dashLine_no_newline (ind l : String) (hind : spacesOnly ind = true)
    (hnl : '\n' ∉ l.data) : '\n' ∉ (ind ++ "- " ++ goTrimSpace l).data := by
  intro h
  rw [String.data_append, String.data_append] at h
  rcases List.mem_append.mp h with h1 | h1
  · rcases List.mem_append.mp h1 with h2 | h2
    · have := (List.all_eq_true.mp hind) '\n' h2
      simp at this
    · simp [String.data] at h2
  · exact hnl (mem_goTrimSpace l '\n' h1)

theorem dashFirst_mem_cases (ind : String) : ∀ (ls : List String) (y : String),
    y ∈ dashFirst ind ls →
    y ∈ ls ∨ ∃ l ∈ ls, isContentLine l = true ∧ y = ind ++ "- " ++ goTrimSpace l := by
  intro ls
  induction ls with
  | nil => intro y hy; simp [dashFirst] at hy
  | cons l rest ih =>
    intro y hy
    unfold dashFirst at hy
    split_ifs at hy with hl
    · rcases List.mem_cons.mp hy with h | h
      · exact Or.inr ⟨l, by simp, hl, h⟩
      · exact Or.inl (List.mem_cons_of_mem _ h)
    · rcases List.mem_cons.mp hy with h | h
      · exact Or.inl (by simp [h])
      · rcases ih y h with h2 | ⟨l2, hl2, hc2, he2⟩
        · exact Or.inl (List.mem_cons_of_mem _ h2)
        · exact Or.inr ⟨l2, List.mem_cons_of_mem _ hl2, hc2, he2⟩

theorem dashFirst_ne_nil (ind : String) (ls : List String) (h : ls ≠ []) :
    dashFirst ind ls ≠ [] := by
  cases ls with
  | nil => exact absurd rfl h
  | cons l rest =>
    unfold dashFirst
    split_ifs <;> simp

theorem dashFirst_no_newline (ind : String) (ls : List String)
    (hind : spacesOnly ind = true) (hnl : ∀ x ∈ ls, '\n' ∉ x.data) :
    ∀ y ∈ dashFirst ind ls, '\n' ∉ y.data := by
  intro y hy
  rcases dashFirst_mem_cases ind ls y hy with h | ⟨l, hl, _, he⟩
  · exact hnl y h
  · rw [he]
    exact dashLine_no_newline ind l hind (hnl l hl)

theorem dashFirst_all_content (ind : String) (ls : List String)
    (hind : spacesOnly ind = true) (hall : ∀ x ∈ ls, isContentLine x = true) :
    ∀ y ∈ dashFirst ind ls, isContentLine y = true := by
  intro y hy
  rcases dashFirst_mem_cases ind ls y hy with h | ⟨l, hl, hc, he⟩
  · exact hall y h
  · rw [he]
    exact dashLine_content ind l hind hc

theorem content_not_comment (l : String) (h : isContentLine l = true) :
    isCommentLine l = false := by
  unfold isContentLine at h
  simp only [Bool.and_eq_true, Bool.not_eq_eq_eq_not, Bool.not_true] at h
  exact h.2

theorem dashFirst_filter_comment (ind : String) (hind : spacesOnly ind = true) :
    ∀ ls : List String,
      (dashFirst ind ls).filter isCommentLine = ls.filter isCommentLine := by
  intro ls
  induction ls with
  | nil => rfl
  | cons l rest ih =>
    unfold dashFirst
    split_ifs with hl
    · rw [List.filter_cons, List.filter_cons]
      rw [content_not_comment _ (dashLine_content ind l hind hl)]
      rw [content_not_comment l hl]
      simp
    · rw [List.filter_cons, List.filter_cons, ih]

theorem dashFirst_decomp (ind : String) : ∀ (pre : List String) (l : String)
    (post : List String), (∀ x ∈ pre, isContentLine x = false) →
    isContentLine l = true →
    dashFirst ind (pre ++ l :: post) =
      pre ++ (ind ++ "- " ++ goTrimSpace l) :: post := by
  intro pre
  induction pre with
  | nil =>
    intro l post hpre hl
    simp only [List.nil_append]
    unfold dashFirst
    rw [if_pos hl]
  | cons p ps ih =>
    intro l post hpre hl
    simp only [List.cons_append]
    unfold dashFirst
    rw [if_neg (by simp [hpre p (by simp)])]
    rw [ih l post (fun x hx => hpre x (List.mem_cons_of_mem _ hx)) hl]

theorem addDashPrefix_strip_comments (content ind : String)
    (hind : spacesOnly ind = true) :
    ∀ l ∈ linesOf ( addDashPrefix content ind false), isCommentLine l = false := by
  intro l hl
  unfold addDashPrefix at hl
  simp only [Bool.false_eq_true, if_false] at hl
  by_cases hF : (linesOf content).filter isContentLine = []
  · rw [hF] at hl
    have : dashFirst ind [] = [] := rfl
    rw [this] at hl
    have hempty : joinNL [] = "" := rfl
    rw [hempty] at hl
    have : linesOf "" = [""] := rfl
    rw [this] at hl
    simp at hl
    rw [hl]
    rfl
  · have hcontent : ∀ x ∈ (linesOf content).filter isContentLine,
        isContentLine x = true := by
      intro x hx
      exact (List.mem_filter.mp hx).2
    have hnlF : ∀ x ∈ (linesOf content).filter isContentLine, '\n' ∉ x.data := by
      intro x hx
      exact linesOf_no_newline content x (List.mem_filter.mp hx).1
    rw [linesOf_joinNL _ (dashFirst_ne_nil ind _ hF)
      (dashFirst_no_newline ind _ hind hnlF)] at hl
    exact content_not_comment l (dashFirst_all_content ind _ hind hcontent l hl)

theorem addDashPrefix_keep_comments (content ind : String)
    (hind : spacesOnly ind = true) :
    (linesOf ( addDashPrefix content ind true)).filter isCommentLine =
      (linesOf content).filter isCommentLine := by
  unfold addDashPrefix
  simp only [if_true]
  rw [linesOf_joinNL _ (dashFirst_ne_nil ind _ (linesOf_ne_nil content))
    (dashFirst_no_newline ind _ hind (linesOf_no_newline content))]
  exact dashFirst_filter_comment ind hind (linesOf content)

end Yamlc

namespace Yamlc

/-- Concatenation of rendered blocks (Go strings.Join with ""). -/
def strConcat : List String → String
  | [] => ""
  | s :: ss => s ++ strConcat ss

/-- The per-element dash blocks of a slice of children: comments kept for
index 0 only. -/
def dashBlocks (indentStr : String) : List String → List String
  | [] => []
  | r :: rest =>
    ( addDashPrefix r indentStr true) ::
      rest.map (fun s => addDashPrefix s indentStr false)

theorem except_bind_ok {α β : Type} (a : α) (f : α → Except String β) :
    (Except.ok a >>= f) = f a := rfl

theorem except_bind_error {α β : Type} (msg : String) (f : α → Except String β) :
    ((Except.error msg : Except String α) >>= f) = Except.error msg := rfl

theorem genSliceItems_children (rv : RenderFn) (indentStr : String)
    (indent total : Nat) :
    ∀ (es : List GoValue) (i : Nat) (out : String), es ≠ [] →
      i + es.length = total → (∀ e ∈ es, hasChildren e = true) →
      genSliceItems rv indentStr indent total i es = Except.ok out →
      ∃ rs : List String,
        List.Forall₂ (fun e r => rv e (indent + 1) = Except.ok r) es rs ∧
        out = strConcat (if i = 0 then dashBlocks indentStr rs
          else rs.map (fun s => addDashPrefix s indentStr false)) ++ "\n" := by
  intro es
  induction es with
  | nil => intro i out hne; exact absurd rfl hne
  | cons e rest ih =>
    intro i out hne htot hch hok
    unfold genSliceItems at hok
    rw [if_pos (hch e (by simp))] at hok
    cases hrv : rv e (indent + 1) with
    | error msg =>
      rw [hrv, except_bind_error] at hok
      exact Except.noConfusion hok
    | ok r =>
      rw [hrv, except_bind_ok] at hok
      cases rest with
      | nil =>
        have htail : i + 1 = total := by simpa using htot
        rw [if_pos htail] at hok
        have hrec : genSliceItems rv indentStr indent total (i + 1) [] =
            Except.ok "" := rfl
        rw [hrec, except_bind_ok] at hok
        injection hok with hout
        refine ⟨[r], List.Forall₂.cons hrv List.Forall₂.nil, ?_⟩
        rw [← hout]
        by_cases hi : i = 0
        · subst hi
          show addDashPrefix r indentStr (0 == 0) ++ "\n" ++ "" =
            ( addDashPrefix r indentStr true ++ "") ++ "\n"
          have h00 : (0 == 0) = true := rfl
          rw [h00]
          rw [String.append_empty, String.append_empty]
        · rw [if_neg hi]
          have hib : (i == 0) = false := by simpa using hi
          show addDashPrefix r indentStr (i == 0) ++ "\n" ++ "" =
            ( addDashPrefix r indentStr false ++ "") ++ "\n"
          rw [hib, String.append_empty, String.append_empty]
      | cons e2 rest2 =>
        have htail : ¬ (i + 1 = total) := by
          simp only [List.length_cons] at htot
          omega
        rw [if_neg htail] at hok
        cases hrec : genSliceItems rv indentStr indent total (i + 1) (e2 :: rest2) with
        | error msg2 =>
          rw [hrec, except_bind_error] at hok
          exact Except.noConfusion hok
        | ok out2 =>
          rw [hrec, except_bind_ok] at hok
          injection hok with hout
          obtain ⟨rs2, hfa2, hout2⟩ := ih (i + 1) out2 (by simp)
            (by simp only [List.length_cons] at htot ⊢; omega)
            (fun x hx => hch x (List.mem_cons_of_mem _ hx)) hrec
          refine ⟨r :: rs2, List.Forall₂.cons hrv hfa2, ?_⟩
          rw [← hout, hout2]
          rw [if_neg (by omega)]
          by_cases hi : i = 0
          · subst hi
            have h00 : (0 == 0) = true := rfl
            show addDashPrefix r indentStr (0 == 0) ++ "" ++
              (strConcat (rs2.map fun s => addDashPrefix s indentStr false) ++ "\n") =
              strConcat (dashBlocks indentStr (r :: rs2)) ++ "\n"
            rw [h00, String.append_empty]
            show addDashPrefix r indentStr true ++
              (strConcat (rs2.map fun s => addDashPrefix s indentStr false) ++ "\n") =
              ( addDashPrefix r indentStr true ++
                strConcat (rs2.map fun s => addDashPrefix s indentStr false)) ++ "\n"
            rw [String.append_assoc]
          · rw [if_neg hi]
            have hib : (i == 0) = false := by simpa using hi
            show addDashPrefix r indentStr (i == 0) ++ "" ++
              (strConcat (rs2.map fun s => addDashPrefix s indentStr false) ++ "\n") =
              strConcat ((r :: rs2).map fun s => addDashPrefix s indentStr false) ++ "\n"
            rw [hib, String.append_empty]
            show addDashPrefix r indentStr false ++
              (strConcat (rs2.map fun s => addDashPrefix s indentStr false) ++ "\n") =
              ( addDashPrefix r indentStr false ++
                strConcat (rs2.map fun s => addDashPrefix s indentStr false)) ++ "\n"
            rw [String.append_assoc]

end Yamlc

namespace Yamlc

theorem goRepeat_spaces (n : Nat) : spacesOnly (goRepeat "  " n) = true := by
  unfold spacesOnly goRepeat
  rw [List.all_eq_true]
  intro c hc
  simp only [String.data] at hc
  rcases List.mem_flatten.mp hc with ⟨l, hl, hcl⟩
  rcases List.eq_of_mem_replicate hl with rfl
  rcases List.mem_cons.mp hcl with h | h
  · simp [h]
  · simp at h
    simp [h]

/-- C1: rendering a non-empty sequence of elements that all have children
produces, per element, the sub-render formatted by addDashPrefix with
comments kept only at index 0 and a final newline (first conjunct); for
index ≥ 1 the formatted block contains no comment line at all (second
conjunct); the block for index 0 retains exactly the comment lines of its
sub-render (third conjunct); and the dash prefix is spliced onto the first
non-blank, non-comment line of the (possibly comment-stripped) line list
(fourth conjunct).  The slice indent string consists of spaces (fifth
conjunct), as the second–fourth conjuncts require. -/
theorem generateSlice_comment_policy (rv : RenderFn) (elems : List GoValue)
    (indent : Nat) (out : String) (hne : elems ≠ [])
    (hch : ∀ e ∈ elems, hasChildren e = true)
    (hok : generateSlice rv elems indent = Except.ok out) :
    (∃ rs : List String,
      List.Forall₂ (fun e r => rv e (indent + 1) = Except.ok r) elems rs ∧
      out = strConcat (dashBlocks (goRepeat "  " indent) rs) ++ "\n") ∧
    (∀ (content indentStr : String), spacesOnly indentStr = true →
      ∀ l ∈ linesOf ( addDashPrefix content indentStr false),
        isCommentLine l = false) ∧
    (∀ (content indentStr : String), spacesOnly indentStr = true →
      (linesOf ( addDashPrefix content indentStr true)).filter isCommentLine =
        (linesOf content).filter isCommentLine) ∧
    (∀ (indentStr : String) (pre : List String) (l : String) (post : List String),
      (∀ x ∈ pre, isContentLine x = false) → isContentLine l = true →
      dashFirst indentStr (pre ++ l :: post) =
        pre ++ (indentStr ++ "- " ++ goTrimSpace l) :: post) ∧
    spacesOnly (goRepeat "  " indent) = true := by
  refine ⟨?_, addDashPrefix_strip_comments, addDashPrefix_keep_comments,
    dashFirst_decomp, goRepeat_spaces indent⟩
  unfold generateSlice at hok
  rw [if_neg (by simpa using hne)] at hok
  obtain ⟨rs, hfa, hout⟩ := genSliceItems_children rv (goRepeat "  " indent) indent
    elems.length elems 0 out hne (by omega) hch hok
  rw [if_pos rfl] at hout
  exact ⟨rs, hfa, hout⟩

/-- Witness for C1: a two-element slice of one-field structs (comments "ca"
and "cb") under the Top style; only the first block keeps its comment line. -/
theorem generateSlice_comment_policy_witness :
    (∃ rs : List String,
      List.Forall₂ (fun e r => (fun v i => generateValue ⟨0, []⟩ 5 v i) e (0 + 1) =
        Except.ok r)
        [GoValue.vStruct [GoField.mk "a" "ca" "string" (GoValue.vStr "x")],
         GoValue.vStruct [GoField.mk "b" "cb" "string" (GoValue.vStr "y")]] rs ∧
      "  # ca\n- a:  x\n- b:  y\n" = strConcat (dashBlocks (goRepeat "  " 0) rs) ++ "\n") ∧
    (∀ (content indentStr : String), spacesOnly indentStr = true →
      ∀ l ∈ linesOf ( addDashPrefix content indentStr false),
        isCommentLine l = false) ∧
    (∀ (content indentStr : String), spacesOnly indentStr = true →
      (linesOf ( addDashPrefix content indentStr true)).filter isCommentLine =
        (linesOf content).filter isCommentLine) ∧
    (∀ (indentStr : String) (pre : List String) (l : String) (post : List String),
      (∀ x ∈ pre, isContentLine x = false) → isContentLine l = true →
      dashFirst indentStr (pre ++ l :: post) =
        pre ++ (indentStr ++ "- " ++ goTrimSpace l) :: post) ∧
    spacesOnly (goRepeat "  " 0) = true :=
  generateSlice_comment_policy (fun v i => generateValue ⟨0, []⟩ 5 v i)
    [GoValue.vStruct [GoField.mk "a" "ca" "string" (GoValue.vStr "x")],
     GoValue.vStruct [GoField.mk "b" "cb" "string" (GoValue.vStr "y")]]
    0 "  # ca\n- a:  x\n- b:  y\n" (by simp) (by decide) rfl

end Yamlc

namespace Yamlc

/-! ## Display-width arithmetic for inline alignment -/

theorem getDisplayWidth_append (a b : String) :
    getDisplayWidth (a ++ b) = getDisplayWidth a + getDisplayWidth b := by
  unfold getDisplayWidth
  rw [String.data_append, List.map_append, List.sum_append]

theorem charWidth_le_utf8Len (c : Char) : charWidth c ≤ utf8Len c := by
  by_cases hw : isWideChar c = true
  · unfold charWidth
    rw [if_pos hw]
    unfold isWideChar at hw
    simp only [Bool.or_eq_true, Bool.and_eq_true, decide_eq_true_eq] at hw
    unfold utf8Len
    split_ifs <;> omega
  · unfold charWidth
    rw [if_neg hw]
    unfold utf8Len
    split_ifs <;> omega

theorem getDisplayWidth_le_goStrLen (s : String) :
    getDisplayWidth s ≤ goStrLen s := by
  unfold getDisplayWidth goStrLen
  exact List.sum_le_sum (fun c _ => charWidth_le_utf8Len c)

theorem getDisplayWidth_repeat_space (n : Nat) :
    getDisplayWidth (goRepeat " " n) = n := by
  induction n with
  | zero => rfl
  | succ k ih =>
    have hstep : goRepeat " " (k + 1) = " " ++ goRepeat " " k := by
      unfold goRepeat
      rfl
    rw [hstep, getDisplayWidth_append, ih]
    have hone : getDisplayWidth " " = 1 := rfl
    omega

theorem foldl_max_ge (fields : List GoField) : ∀ acc : Nat,
    (acc ≤ fields.foldl (fun m f => max m (goStrLen f.name + 1)) acc) ∧
    ∀ g ∈ fields,
      goStrLen g.name + 1 ≤ fields.foldl (fun m f => max m (goStrLen f.name + 1)) acc := by
  induction fields with
  | nil => intro acc; exact ⟨le_refl acc, by simp⟩
  | cons f rest ih =>
    intro acc
    simp only [List.foldl_cons]
    obtain ⟨h1, h2⟩ := ih (max acc (goStrLen f.name + 1))
    refine ⟨le_trans (le_max_left _ _) h1, ?_⟩
    intro g hg
    rcases List.mem_cons.mp hg with h | h
    · subst h
      exact le_trans (le_max_right _ _) h1
    · exact h2 g h

theorem calculateMaxFieldNameLen_ge (fields : List GoField) (g : GoField)
    (hg : g ∈ fields) : goStrLen g.name + 1 ≤ calculateMaxFieldNameLen fields :=
  (foldl_max_ge fields 0).2 g hg

end Yamlc

namespace Yamlc

/-- C4 (corrected): in Inline style, for every level of fields and every leaf
field of that level carrying a comment, the rendered line places its
`# comment` at a display-width column at least `getDisplayWidth(name) + 30`
for EVERY field name of the level.  This monotone bound holds; but the shared
alignment column itself is computed from the widest field name measured in
UTF-8 BYTES (`len(field.Name) + 1` in `calculateMaxFieldNameLen`), not in
display width as the claim states — see the counterexample. -/
theorem inline_comment_column_amended (rv : RenderFn) (fields : List GoField)
    (field : GoField) (indent : Nat) (out : String) (hmem : field ∈ fields)
    (hleaf : hasChildren field.value = false) (hcomment : field.comment ≠ "")
    (hok : generateInlineStyleField rv field (goRepeat "  " indent)
      (calculateMaxFieldNameLen fields) = Except.ok out) :
    ∃ pre suf, out = pre ++ "# " ++ field.comment ++ suf ∧
      ∀ g ∈ fields, getDisplayWidth g.name + 30 ≤ getDisplayWidth pre := by
  simp only [generateInlineStyleField, hleaf, Bool.false_eq_true, if_false,
    Bool.false_or] at hok
  cases hsl : isSliceKind field.value with
  | false =>
    simp only [hsl, Bool.false_eq_true, if_false] at hok
    cases hrv : rv field.value 0 with
    | error m =>
      rw [hrv, except_bind_error] at hok
      exact Except.noConfusion hok
    | ok fv0 =>
      rw [hrv, except_bind_ok] at hok
      rw [if_pos hcomment] at hok
      injection hok with hout
      subst hout
      refine ⟨_, "\n", rfl, ?_⟩
      intro g hg
      have h1 := calculateMaxFieldNameLen_ge fields g hg
      have h2 := getDisplayWidth_le_goStrLen g.name
      rw [getDisplayWidth_append, getDisplayWidth_repeat_space]
      split_ifs with hc <;> omega
  | true =>
    simp only [hsl, if_true, Bool.true_and] at hok
    by_cases hlen : sliceLen field.value > 0
    · simp only [hlen, decide_True, if_true] at hok
      cases hrv : rv field.value 1 with
      | error m =>
        rw [hrv, except_bind_error] at hok
        exact Except.noConfusion hok
      | ok fv0 =>
        rw [hrv, except_bind_ok] at hok
        rw [if_pos hcomment, if_pos hcomment] at hok
        injection hok with hout
        subst hout
        refine ⟨goRepeat "  " indent ++ field.name ++ ":" ++
          goRepeat " " ((calculateMaxFieldNameLen fields : Int) + 30 +
            (getDisplayWidth (goRepeat "  " indent) : Int) -
            (getDisplayWidth (goRepeat "  " indent ++ field.name ++ ": ") : Int)).toNat,
          goTrimRightNL fv0 ++ "\n", ?_, ?_⟩
        · rw [String.append_assoc]
        · intro g hg
          have h1 := calculateMaxFieldNameLen_ge fields g hg
          have h2 := getDisplayWidth_le_goStrLen g.name
          have hcol : getDisplayWidth ":" = 1 := rfl
          have hcolsp : getDisplayWidth ": " = 2 := rfl
          simp only [getDisplayWidth_append, getDisplayWidth_repeat_space,
            hcol, hcolsp]
          omega
    · simp only [hlen, decide_False, Bool.false_eq_true, if_false] at hok
      cases hrv : rv field.value 0 with
      | error m =>
        rw [hrv, except_bind_error] at hok
        exact Except.noConfusion hok
      | ok fv0 =>
        rw [hrv, except_bind_ok] at hok
        rw [if_pos hcomment] at hok
        injection hok with hout
        subst hout
        refine ⟨_, "\n", rfl, ?_⟩
        intro g hg
        have h1 := calculateMaxFieldNameLen_ge fields g hg
        have h2 := getDisplayWidth_le_goStrLen g.name
        rw [getDisplayWidth_append, getDisplayWidth_repeat_space]
        split_ifs with hc <;> omega

/-- C4 counterexample to the display-width computation: for the single CJK
field name `名字` (display width 4, byte length 6), `calculateMaxFieldNameLen`
yields 7 = bytes + 1 rather than 5 = display width + 1, and the rendered line
puts `#` at display column 39 = (bytes+1) + 30 + 2, not at the
display-width-predicted column 37 = (width+1) + 30 + 2. -/
theorem inline_alignment_bytelen_counterexample :
    generateInlineStyleField (fun v i => generateValue ⟨1, []⟩ 3 v i)
      (GoField.mk "名字" "c" "string" (GoValue.vStr "x")) ""
      (calculateMaxFieldNameLen [GoField.mk "名字" "c" "string" (GoValue.vStr "x")])
      = Except.ok ("名字: x" ++ goRepeat " " 32 ++ "# c" ++ "\n") ∧
    calculateMaxFieldNameLen [GoField.mk "名字" "c" "string" (GoValue.vStr "x")] = 7 ∧
    getDisplayWidth "名字" + 1 = 5 ∧
    getDisplayWidth ("名字: x" ++ goRepeat " " 32) = 39 ∧
    (getDisplayWidth "名字" + 1) + 30 + 2 ≠ 39 := by
  refine ⟨rfl, rfl, rfl, rfl, by decide⟩

/-- C4 witness: the amended theorem applied to the concrete one-field level
`a: x  # c` rendered by the Inline field renderer at indent 0. -/
theorem inline_comment_column_amended_witness :
    ∃ pre suf, ("a: x" ++ goRepeat " " 30 ++ "# c" ++ "\n") =
      pre ++ "# " ++ (GoField.mk "a" "c" "string" (GoValue.vStr "x")).comment ++ suf ∧
      ∀ g ∈ [GoField.mk "a" "c" "string" (GoValue.vStr "x")],
        getDisplayWidth g.name + 30 ≤ getDisplayWidth pre :=
  inline_comment_column_amended (fun v i => generateValue ⟨1, []⟩ 3 v i)
    [GoField.mk "a" "c" "string" (GoValue.vStr "x")]
    (GoField.mk "a" "c" "string" (GoValue.vStr "x")) 0
    ("a: x" ++ goRepeat " " 30 ++ "# c" ++ "\n")
    (List.mem_singleton.mpr rfl) rfl (by decide) rfl

end Yamlc
